import Mathlib

/-!
Verification of the taint analysis core (`src/analysis/taint_analysis.rs`).

The development shallowly embeds the analysis into Lean:
* MIR shapes (`Operand`, `Rvalue`, `Stmt`, `Terminator`, `BasicBlockData`,
  `Body`) carry exactly the distinctions the transfer function inspects.
* `BitSet<Local>` becomes `Finset Nat`; the summary cache
  (`Contexts = HashMap<(DefId, InitSet), Option<BitSet<Local>>>`) becomes an
  association list in which an insert prepends, so a lookup sees the newest
  binding, and `none` stored under a key is the `InProgress` marker.
* The taint/alias domain (`taint_domain.rs`, whose source is not part of the
  crate snapshot) is modelled from the spec, as are the forward fixpoint
  engine and reverse-postorder traversal provided by `rustc_mir_dataflow`
  and `rustc_middle`.
-/

namespace TaintRs

/-- Variable index inside one function body; index 0 is the return value. -/
abbrev Local := Nat

/-- Function identity (`DefId`). -/
abbrev FnId := Nat

/-- Taint state: the set of possibly tainted locals (`BitSet&lt;Local&gt;`). -/
abbrev TaintState := Finset Local

/-- Alias map recorded by reference-taking assignments.  The Rust code keeps
`PointsMap = HashMap<Local, HashSet<Local>>`; we keep the graph as the list of
its edges `(dst, src)`, newest first. -/
abbrev PointsMap := List (Local × Local)

/-- Direct alias targets of `v` in the map. -/
def aliasTargets (m : PointsMap) (v : Local) : List Local :=
  (m.filter (fun e => e.1 = v)).map (fun e => e.2)

/-- One saturation step of the alias closure: add every direct target of a
member. -/
def stepR (m : PointsMap) (s : Finset Local) : Finset Local :=
  s ∪ s.biUnion (fun v => (aliasTargets m v).toFinset)

/-- Modelled from the spec: the set of variables transitively reachable from
`v` through recorded alias edges, `v` included.  (`taint_domain.rs`, which
implements the transitive walk, is missing from the snapshot; the spec's alias
rule asks for the transitive closure.)  Saturation in `m.length + 1` rounds is
exact, as proved below. -/
def reach (m : PointsMap) (v : Local) : Finset Local :=
  (stepR m)^[m.length + 1] {v}

/-- Combined per-analysis mutable state: the taint bitset together with the
alias map (`PointsAwareTaintDomain`). -/
structure PState where
  taint : TaintState
  points : PointsMap
deriving DecidableEq

/-- Modelled from the spec: `get_taint(v) → bool` reads the taint of `v`. -/
def getTaint (st : PState) (v : Local) : Bool := v ∈ st.taint

/-- Modelled from the spec: `set_taint(v, b)` strongly overwrites the taint of
`v`, and by the alias rule applies the same effect to everything `v`
transitively aliases. -/
def setTaint (st : PState) (v : Local) (b : Bool) : PState :=
  if b then { st with taint := st.taint ∪ reach st.points v }
  else { st with taint := st.taint \ reach st.points v }

/-- Modelled from the spec: `propagate(src, dst)` copies the current taint of
`src` onto `dst`. -/
def propagate (st : PState) (src dst : Local) : PState :=
  setTaint st dst (getTaint st src)

/-- Modelled from the spec: `add_ref(dst, src)` records that `dst` may alias
`src`; it changes no taint. -/
def addRef (st : PState) (dst src : Local) : PState :=
  { st with points := (dst, src) :: st.points }

/-- MIR operand, as far as the transfer function distinguishes them. -/
inductive Operand where
  | copy (l : Local)
  | move (l : Local)
  | const
deriving DecidableEq

/-- Rust's `Operand::place()`: the local of a copy/move, `None` for a
constant. -/
def Operand.place : Operand → Option Local
  | .copy l => some l
  | .move l => some l
  | .const => none

/-- MIR rvalue shapes matched by `t_visit_assign`. -/
inductive Rvalue where
  | use (op : Operand)
  | unaryOp (op : Operand)
  | binaryOp (a b : Operand)
  | checkedBinaryOp (a b : Operand)
  | ref (l : Local)
  | repeatRv
  | threadLocalRef
  | addressOf
  | len
  | cast
  | nullaryOp
  | discriminant
  | aggregate
  | shallowInitBox
  | copyForDeref
deriving DecidableEq

/-- Transfer of `StatementKind::Assign` (`t_visit_assign`). -/
def t_visit_assign (st : PState) (place : Local) (rv : Rvalue) : PState :=
  match rv with
  | .use .const => setTaint st place false
  | .unaryOp .const => setTaint st place false
  | .use (.copy f) | .use (.move f) => propagate st f place
  | .binaryOp a b | .checkedBinaryOp a b =>
    match a, b with
    | .const, .const => setTaint st place false
    | .copy a, .copy b | .copy a, .move b | .move a, .copy b | .move a, .move b =>
      if getTaint st a || getTaint st b then setTaint st place true
      else setTaint st place false
    | .copy p, .const | .move p, .const | .const, .copy p | .const, .move p =>
      propagate st p place
  | .unaryOp (.move p) | .unaryOp (.copy p) => propagate st p place
  | .ref p => addRef st place p
  | .repeatRv => st
  | .threadLocalRef => st
  | .addressOf => st
  | .len => st
  | .cast => st
  | .nullaryOp => st
  | .discriminant => st
  | .aggregate => st
  | .shallowInitBox => st
  | .copyForDeref => st

/-- Diagnostic emitted through `struct_span_err!`. -/
structure Diagnostic where
  span : Nat
  msg : String
deriving DecidableEq

/-- Sink handling (`t_visit_sink`): if any argument with a place is currently
tainted, emit the fixed diagnostic at the call span; the state is read
only. -/
def t_visit_sink (st : PState) (name : String) (args : List Operand)
    (span : Nat) : Option Diagnostic :=
  if args.any (fun op =>
      match op.place with
      | some l => getTaint st l
      | none => false) then
    some ⟨span, "function `" ++ name ++ "` received tainted input"⟩
  else none

/-- Classification of a callable by the attribute oracle (`AttrInfoKind`).
`Option AttrInfoKind` plays the role of `info.get_kind`: `none` means
unclassified. -/
inductive AttrInfoKind where
  | source
  | sanitizer
  | sink
deriving DecidableEq

/-- MIR statement: only assignments are interpreted (`visit_statement`). -/
inductive Stmt where
  | assign (place : Local) (rv : Rvalue)
  | other
deriving DecidableEq

/-- MIR terminator shapes matched by `visit_terminator`.  A call carries the
callee identity, its display name, arguments, destination, span and return
target. -/
inductive Terminator where
  | goto (target : Nat)
  | switchInt (targets : List Nat)
  | ret
  | call (callee : FnId) (name : String) (args : List Operand) (dest : Local)
      (span : Nat) (target : Option Nat)
  | assertT (target : Nat)
  | unmodeled (targets : List Nat)
deriving DecidableEq

/-- Control-flow successors of a terminator. -/
def Terminator.successors : Terminator → List Nat
  | .goto t => [t]
  | .switchInt ts => ts
  | .ret => []
  | .call _ _ _ _ _ t => t.toList
  | .assertT t => [t]
  | .unmodeled ts => ts

/-- Basic block: ordered statements and one terminator. -/
structure BasicBlockData where
  stmts : List Stmt
  term : Terminator
deriving DecidableEq

/-- Function body: blocks, local count, and the number of formal parameters
(locals `1..argCount` are the formals, local 0 the return value). -/
structure Body where
  numLocals : Nat
  argCount : Nat
  blocks : List BasicBlockData
deriving DecidableEq

/-- The whole program as seen by the analysis: the set of function identities,
their optimized MIR bodies (`tcx.optimized_mir`), and the classification
oracle. -/
structure Program where
  fns : Finset FnId
  bodies : FnId → Body
  info : FnId → Option AttrInfoKind

/-- `InitSet = Vec<Option<bool>>`: one tri-state per actual argument. -/
abbrev InitSet := List (Option Bool)

/-- Summary cache key. -/
abbrev CacheKey := FnId × InitSet

/-- The summary cache (`Contexts`).  An association list: insert prepends and
lookup returns the newest binding; a key bound to `none` is the `InProgress`
marker, a key bound to `some s` is `Done s`. -/
abbrev Cache := List (CacheKey × Option TaintState)

def cacheLookup (c : Cache) (k : CacheKey) : Option (Option TaintState) :=
  (c.find? (fun e => decide (e.1 = k))).map (fun e => e.2)

def cacheInsert (c : Cache) (k : CacheKey) (v : Option TaintState) : Cache :=
  (k, v) :: c

/-- Interprocedural side state threaded through the run: the shared summary
cache and the diagnostics emitted so far. -/
structure Interp where
  cache : Cache
  diags : List Diagnostic
deriving DecidableEq

/-- The locals holding the formal parameters: `body.args_iter()`. -/
def argLocals (body : Body) : List Local := List.range' 1 body.argCount

/-- Modelled from the spec: `initialize_start_block` seeds the entry state by
marking each formal parameter whose init entry is `Some true` as tainted. -/
def initState (init : InitSet) (body : Body) : TaintState :=
  ((init.zip (argLocals body)).filter (fun p => p.1.getD false)).foldl
    (fun s p => insert p.2 s) ∅

/-- Effect of one statement. -/
def applyStmt (ps : PState) : Stmt → PState
  | .assign place rv => t_visit_assign ps place rv
  | .other => ps

/-- Effect of a block's statement list, in order. -/
def applyStmts (ps : PState) (ss : List Stmt) : PState := ss.foldl applyStmt ps

/-- The InitVector built from a call's actual arguments
(`t_fn_call_analysis`): known taint for a plain variable, unknown for a
constant. -/
def initVector (ps : PState) (args : List Operand) : InitSet :=
  args.map (fun a =>
    match a with
    | .copy p => some (getTaint ps p)
    | .move p => some (getTaint ps p)
    | .const => none)

/-- Modelled from the spec: depth-first postorder from block 0
(`rustc_middle`'s `traversal::reverse_postorder`, reversed).  The pair holds
the visited list and the emitted postorder. -/
def dfsPostAux (blocks : List BasicBlockData) (fuel : Nat) (visited : List Nat)
    (work : List Nat) : List Nat × List Nat :=
  match fuel, work with
  | _, [] => (visited, [])
  | 0, _ => (visited, [])
  | fuel + 1, b :: rest =>
    if b ∈ visited then dfsPostAux blocks fuel visited rest
    else
      match blocks[b]? with
      | none => dfsPostAux blocks fuel (b :: visited) rest
      | some blk =>
        let r1 := dfsPostAux blocks fuel (b :: visited) blk.term.successors
        let r2 := dfsPostAux blocks fuel r1.1 rest
        (r2.1, r1.2 ++ b :: r2.2)

/-- Generous traversal fuel: one unit per initial item, per block, and per
successor edge, so the depth-first walk never runs dry. -/
def dfsFuel (blocks : List BasicBlockData) : Nat :=
  1 + blocks.length + (blocks.map (fun b => b.term.successors.length)).sum

/-- Modelled from the spec: reverse postorder over the body's CFG. -/
def rpo (body : Body) : List Nat :=
  (dfsPostAux body.blocks (dfsFuel body.blocks) [] [0]).2.reverse

/-- Per-analysis dataflow state of the fixpoint engine: the entry state of
every block plus the alias map, which the Rust analysis keeps in a `RefCell`
for the whole engine run. -/
structure EngineState where
  entries : List TaintState
  points : PointsMap
deriving DecidableEq

/-- Join the exit state of a block into the entry of each successor
(monotone union, as the worklist engine does). -/
def joinSuccs (entries : List TaintState) (exitT : TaintState) :
    List Nat → List TaintState
  | [] => entries
  | s :: rest => joinSuccs (entries.set s (entries.getD s ∅ ∪ exitT)) exitT rest

/-- Initial block-entry states: bottom except the seeded start block. -/
def initialEntries (init : InitSet) (body : Body) : List TaintState :=
  (List.range body.blocks.length).map
    (fun b => if b = 0 then initState init body else ∅)

/-- Enough fixpoint rounds for any converging run: the entry states grow
monotonically inside `blocks.length` subsets of `range numLocals`. -/
def roundBound (body : Body) : Nat := body.blocks.length * body.numLocals + 2

/-- Answer of a nested summary resolution one fuel level down: the layered
functions below are parameterized by it, and `summaryAtFuel` ties the knot by
structural recursion on fuel. -/
abbrev SummaryOracle := Interp → FnId → InitSet → Option (Interp × Option TaintState)

/-- Write-back loop of `t_fn_call_analysis`: each plain-variable actual is
strongly overwritten with the exit taint of its positional formal. -/
def writeBackArgs (endState : TaintState) (argMap : List (Option Local × Local))
    (ps : PState) : PState :=
  argMap.foldl (fun s p =>
    match p.1 with
    | some l => setTaint s l (decide (p.2 ∈ endState))
    | none => s) ps

/-- Call to an unclassified callee (`t_fn_call_analysis`): resolve a summary
for the observed argument pattern; on success mark the destination tainted if
the summary taints the return place, then overwrite each plain-variable
argument with the exit taint of its positional formal. -/
def t_fn_call_analysisO (prog : Program) (oracle : SummaryOracle) (σ : Interp)
    (ps : PState) (args : List Operand) (id : FnId) (dest : Local) :
    Option (Interp × PState) :=
  match oracle σ id (initVector ps args) with
  | none => none
  | some (σ2, none) => some (σ2, ps)
  | some (σ2, some endState) =>
    let ps1 := if 0 ∈ endState then setTaint ps dest true else ps
    some (σ2, writeBackArgs endState
      ((args.map Operand.place).zip (argLocals (prog.bodies id))) ps1)

/-- Transfer of a terminator (`visit_terminator` + `t_visit_call`): calls
dispatch on the callee classification, everything else is a domain no-op. -/
def stepTermO (prog : Program) (oracle : SummaryOracle) (σ : Interp)
    (ps : PState) (t : Terminator) : Option (Interp × PState) :=
  match t with
  | .call id name args dest span _ =>
    match prog.info id with
    | some .source => some (σ, setTaint ps dest true)
    | some .sanitizer => some (σ, setTaint ps dest false)
    | some .sink =>
      some (⟨σ.cache, σ.diags ++ (t_visit_sink ps name args span).toList⟩, ps)
    | none => t_fn_call_analysisO prog oracle σ ps args id dest
  | .goto _ => some (σ, ps)
  | .switchInt _ => some (σ, ps)
  | .ret => some (σ, ps)
  | .assertT _ => some (σ, ps)
  | .unmodeled _ => some (σ, ps)

/-- State at the end of one block: all statements, then the terminator. -/
def blockExitO (prog : Program) (oracle : SummaryOracle) (σ : Interp)
    (entry : TaintState) (points : PointsMap) (blk : BasicBlockData) :
    Option (Interp × PState) :=
  stepTermO prog oracle σ (applyStmts ⟨entry, points⟩ blk.stmts) blk.term

/-- Modelled from the spec: one engine round applies each listed block's
transfer function to its current entry state and joins the exit into every
successor's entry. -/
def engineRoundO (prog : Program) (oracle : SummaryOracle) (body : Body)
    (σ : Interp) (es : EngineState) (order : List Nat) :
    Option (Interp × EngineState) :=
  match order with
  | [] => some (σ, es)
  | b :: rest =>
    match body.blocks[b]? with
    | none => engineRoundO prog oracle body σ es rest
    | some blk =>
      match blockExitO prog oracle σ (es.entries.getD b ∅) es.points blk with
      | none => none
      | some (σ2, ps) =>
        engineRoundO prog oracle body σ2
          ⟨joinSuccs es.entries ps.taint blk.term.successors, ps.points⟩ rest

/-- Modelled from the spec: the forward fixpoint engine
(`iterate_to_fixpoint`) revisits the blocks in reverse postorder until no
block entry state changes between rounds. -/
def engineIterO (prog : Program) (oracle : SummaryOracle) (body : Body)
    (order : List Nat) (roundFuel : Nat) (σ : Interp) (es : EngineState) :
    Option (Interp × EngineState) :=
  match roundFuel with
  | 0 => none
  | r + 1 =>
    match engineRoundO prog oracle body σ es order with
    | none => none
    | some (σ2, es2) =>
      if es2.entries = es.entries then some (σ2, es2)
      else engineIterO prog oracle body order r σ2 es2

/-- Nested fixpoint run over a callee body, returning the state at the end of
the block last visited in reverse postorder (`seek_to_block_end` re-applies
the transfer function of that block, hence the final `blockExitO`). -/
def analyzeNestedO (prog : Program) (oracle : SummaryOracle) (σ : Interp)
    (id : FnId) (init : InitSet) : Option (Interp × Option TaintState) :=
  let body := prog.bodies id
  let order := rpo body
  match engineIterO prog oracle body order (roundBound body) σ
      ⟨initialEntries init body, []⟩ with
  | none => none
  | some (σ2, es) =>
    match order.getLast? with
    | none => some (σ2, none)
    | some last =>
      match body.blocks[last]? with
      | none => some (σ2, none)
      | some blk =>
        match blockExitO prog oracle σ2 (es.entries.getD last ∅) es.points
            blk with
        | none => none
        | some (σ3, ps) => some (σ3, some ps.taint)

/-- Interprocedural summary resolution (`t_function_summary`).  A cached
entry (`Done` or `InProgress`) is returned as is; otherwise `InProgress`
(`none`) is inserted under the key, the callee is analyzed, and the entry is
overwritten with the computed summary.  `fuel` bounds the depth of fresh
summary computations; a `none` result means the fuel ran out. -/
def summaryAtFuel (prog : Program) : Nat → SummaryOracle
  | 0, σ, id, init =>
    (match cacheLookup σ.cache (id, init) with
     | some s => some (σ, s)
     | none => none)
  | f + 1, σ, id, init =>
    match cacheLookup σ.cache (id, init) with
    | some s => some (σ, s)
    | none =>
      match analyzeNestedO prog (summaryAtFuel prog f)
          ⟨cacheInsert σ.cache (id, init) none, σ.diags⟩ id init with
      | none => none
      | some (σ2, state) =>
        some (⟨cacheInsert σ2.cache (id, init) state, σ2.diags⟩, state)

/-- `t_function_summary` with a fuel bound on fresh nested computations. -/
def t_function_summary (prog : Program) (fuel : Nat) (σ : Interp) (id : FnId)
    (init : InitSet) : Option (Interp × Option TaintState) :=
  summaryAtFuel prog fuel σ id init

/-- `t_fn_call_analysis`, nested summaries resolved at the given fuel. -/
def t_fn_call_analysis (prog : Program) (fuel : Nat) (σ : Interp) (ps : PState)
    (args : List Operand) (id : FnId) (dest : Local) :
    Option (Interp × PState) :=
  t_fn_call_analysisO prog (summaryAtFuel prog fuel) σ ps args id dest

/-- Terminator transfer, nested summaries resolved at the given fuel. -/
def stepTerm (prog : Program) (fuel : Nat) (σ : Interp) (ps : PState)
    (t : Terminator) : Option (Interp × PState) :=
  stepTermO prog (summaryAtFuel prog fuel) σ ps t

/-- Block transfer, nested summaries resolved at the given fuel. -/
def blockExit (prog : Program) (fuel : Nat) (σ : Interp) (entry : TaintState)
    (points : PointsMap) (blk : BasicBlockData) : Option (Interp × PState) :=
  blockExitO prog (summaryAtFuel prog fuel) σ entry points blk

/-- One engine round, nested summaries resolved at the given fuel. -/
def engineRound (prog : Program) (fuel : Nat) (body : Body) (σ : Interp)
    (es : EngineState) (order : List Nat) : Option (Interp × EngineState) :=
  engineRoundO prog (summaryAtFuel prog fuel) body σ es order

/-- Engine iteration, nested summaries resolved at the given fuel. -/
def engineIter (prog : Program) (fuel : Nat) (body : Body) (order : List Nat)
    (roundFuel : Nat) (σ : Interp) (es : EngineState) :
    Option (Interp × EngineState) :=
  engineIterO prog (summaryAtFuel prog fuel) body order roundFuel σ es

/-- Nested analysis of one callee, at the given fuel. -/
def analyzeNested (prog : Program) (fuel : Nat) (σ : Interp) (id : FnId)
    (init : InitSet) : Option (Interp × Option TaintState) :=
  analyzeNestedO prog (summaryAtFuel prog fuel) σ id init
/-! ### Well-formedness and finiteness of the key space -/

/-- Locals named by an operand lie below the body's local count. -/
def operandLocalsLt (n : Nat) : Operand → Bool
  | .copy l => decide (l < n)
  | .move l => decide (l < n)
  | .const => true

/-- Locals named by an rvalue lie below the body's local count. -/
def rvalueLocalsLt (n : Nat) : Rvalue → Bool
  | .use op => operandLocalsLt n op
  | .unaryOp op => operandLocalsLt n op
  | .binaryOp a b => operandLocalsLt n a && operandLocalsLt n b
  | .checkedBinaryOp a b => operandLocalsLt n a && operandLocalsLt n b
  | .ref l => decide (l < n)
  | .repeatRv => true
  | .threadLocalRef => true
  | .addressOf => true
  | .len => true
  | .cast => true
  | .nullaryOp => true
  | .discriminant => true
  | .aggregate => true
  | .shallowInitBox => true
  | .copyForDeref => true

/-- Statement well-formedness: all named locals are in range. -/
def stmtWF (n : Nat) : Stmt → Bool
  | .assign place rv => decide (place < n) && rvalueLocalsLt n rv
  | .other => true

/-- Terminator well-formedness: destination and argument locals in range. -/
def termWF (n : Nat) : Terminator → Bool
  | .call _ _ args dest _ _ =>
    decide (dest < n) && args.all (operandLocalsLt n)
  | .goto _ => true
  | .switchInt _ => true
  | .ret => true
  | .assertT _ => true
  | .unmodeled _ => true

/-- Body well-formedness: the formals fit below the local count and every
statement and terminator names only in-range locals (as the `BitSet` panics
on out-of-range indices otherwise). -/
def bodyWF (body : Body) : Bool :=
  decide (body.argCount < body.numLocals) &&
    body.blocks.all (fun blk =>
      blk.stmts.all (stmtWF body.numLocals) && termWF body.numLocals blk.term)

/-- Number of actual arguments of a call terminator. -/
def callArity : Terminator → Nat
  | .call _ _ args _ _ _ => args.length
  | .goto _ => 0
  | .switchInt _ => 0
  | .ret => 0
  | .assertT _ => 0
  | .unmodeled _ => 0

/-- Largest argument list of any call in any analyzed body. -/
def maxCallArity (prog : Program) : Nat :=
  prog.fns.sup (fun f =>
    ((prog.bodies f).blocks.map (fun blk => callArity blk.term)).foldr max 0)

/-- Every unclassified callee of the body is itself an analyzed function. -/
def calleesOk (prog : Program) (body : Body) : Bool :=
  body.blocks.all (fun blk =>
    match blk.term with
    | .call callee _ _ _ _ _ =>
      (prog.info callee).isSome || decide (callee ∈ prog.fns)
    | _ => true)

/-- Program well-formedness: every analyzed body is well formed and calls
only classified functions or analyzed functions. -/
def ProgWF (prog : Program) : Prop :=
  ∀ f ∈ prog.fns,
    bodyWF (prog.bodies f) = true ∧ calleesOk prog (prog.bodies f) = true

/-- All init vectors of one exact length. -/
def initSetsExact : Nat → Finset InitSet
  | 0 => {[]}
  | n + 1 =>
    (({none, some false, some true} : Finset (Option Bool)) ×ˢ
      initSetsExact n).image (fun p => p.1 :: p.2)

/-- All init vectors of length at most `L`. -/
def initSetsUpTo (L : Nat) : Finset InitSet :=
  (Finset.range (L + 1)).biUnion initSetsExact

/-- The finite space of summary-cache keys reachable in a run: analyzed
functions paired with init vectors no longer than the largest call. -/
def keyUniverse (prog : Program) : Finset CacheKey :=
  prog.fns ×ˢ initSetsUpTo (maxCallArity prog)

/-- Keys of the universe not yet present in the cache; the termination
measure of nested summary computations. -/
def missingKeys (prog : Program) (c : Cache) : Finset CacheKey :=
  (keyUniverse prog).filter (fun k => cacheLookup c k = none)

/-- Cache domain growth: every key answered stays answered. -/
def cacheLe (c c' : Cache) : Prop :=
  ∀ k, (cacheLookup c k).isSome = true → (cacheLookup c' k).isSome = true

/-- A taint state inside the body's local range. -/
def taintBounded (n : Nat) (t : TaintState) : Prop := ∀ x ∈ t, x < n

/-- An alias map whose edges stay inside the body's local range. -/
def pointsBounded (n : Nat) (m : PointsMap) : Prop :=
  ∀ e ∈ m, e.1 < n ∧ e.2 < n

/-- All block-entry states inside the body's local range. -/
def entriesBounded (n : Nat) (l : List TaintState) : Prop :=
  ∀ t ∈ l, taintBounded n t

/-- Total size of the block-entry states: the strictly increasing quantity
that forces the fixpoint rounds to converge. -/
def sumCard (l : List TaintState) : Nat := (l.map Finset.card).sum

/-- Calls with an unclassified callee target an analyzed function of bounded
arity (what the engine needs of every terminator it interprets). -/
def TermOk (prog : Program) (t : Terminator) : Prop :=
  ∀ callee name args dest span tgt,
    t = .call callee name args dest span tgt → prog.info callee = none →
      callee ∈ prog.fns ∧ args.length ≤ maxCallArity prog

/-- What the engine needs of the nested-summary oracle: success and cache
growth on every analyzed callee, whenever the cache extends the base cache
`c0`. -/
def OracleGood (prog : Program) (c0 : Cache) (oracle : SummaryOracle) : Prop :=
  ∀ σ2 k i, k ∈ prog.fns → i.length ≤ maxCallArity prog →
    cacheLe c0 σ2.cache →
      ∃ out, oracle σ2 k i = some out ∧ cacheLe σ2.cache out.1.cache

/-- Pointwise growth of block-entry state lists. -/
def entriesLe (l l2 : List TaintState) : Prop :=
  l.length = l2.length ∧ ∀ i, l.getD i ∅ ⊆ l2.getD i ∅

/-- Every call in the body has a classified callee, so its analysis never
consults the summary cache (a sufficient, checkable condition for the callee
being non-recursive). -/
def callFreeBody (prog : Program) (body : Body) : Bool :=
  body.blocks.all (fun blk =>
    match blk.term with
    | .call callee _ _ _ _ _ => (prog.info callee).isSome
    | _ => true)

/-- Binding stability: every key already answered keeps the same answer
(the interpreter never overwrites a binding that predates a call). -/
def cachePres (c c2 : Cache) : Prop :=
  ∀ k v, cacheLookup c k = some v → cacheLookup c2 k = some v

/-- An oracle whose successful calls preserve pre-existing bindings. -/
def OraclePres (oracle : SummaryOracle) : Prop :=
  ∀ σ k i out, oracle σ k i = some out → cachePres σ.cache out.1.cache

/-- An oracle that records its answer under the queried key. -/
def OracleRecords (oracle : SummaryOracle) : Prop :=
  ∀ σ k i out, oracle σ k i = some out →
    cacheLookup out.1.cache (k, i) = some out.2

/-- An oracle that answers a present key from the cache, untouched. -/
def OracleHits (oracle : SummaryOracle) : Prop :=
  ∀ σ k i v, cacheLookup σ.cache (k, i) = some v → oracle σ k i = some (σ, v)

/-! ### Alias closure lemmas -/

theorem subset_stepR (m : PointsMap) (s : Finset Local) : s ⊆ stepR m s :=
  Finset.subset_union_left

theorem stepR_mono (m : PointsMap) {s t : Finset Local} (h : s ⊆ t) :
    stepR m s ⊆ stepR m t :=
  Finset.union_subset_union h (Finset.biUnion_subset_biUnion_of_subset_left _ h)

theorem subset_iterate_stepR (m : PointsMap) (s : Finset Local) (n : Nat) :
    s ⊆ (stepR m)^[n] s := by
  induction n with
  | zero => simp
  | succ n ih =>
    rw [Function.iterate_succ_apply']
    exact ih.trans (subset_stepR m _)

theorem self_mem_reach (m : PointsMap) (v : Local) : v ∈ reach m v :=
  subset_iterate_stepR m {v} (m.length + 1) (Finset.mem_singleton_self v)

theorem iterate_stepR_le_succ (m : PointsMap) (s : Finset Local) (n : Nat) :
    (stepR m)^[n] s ⊆ (stepR m)^[n + 1] s := by
  rw [Function.iterate_succ_apply']
  exact subset_stepR m _

/-- Every iterate stays inside the seed together with all edge targets. -/
theorem iterate_stepR_subset_bound (m : PointsMap) (v : Local) (n : Nat) :
    (stepR m)^[n] {v} ⊆ insert v (m.map (fun e => e.2)).toFinset := by
  induction n with
  | zero => simp
  | succ n ih =>
    rw [Function.iterate_succ_apply']
    apply Finset.union_subset ih
    intro x hx
    rcases Finset.mem_biUnion.1 hx with ⟨w, _, hxw⟩
    rcases List.mem_toFinset.1 hxw with hx'
    rcases List.mem_map.1 hx' with ⟨e, he, rfl⟩
    exact Finset.mem_insert_of_mem
      (List.mem_toFinset.2 (List.mem_map.2 ⟨e, List.mem_of_mem_filter he, rfl⟩))

theorem card_iterate_stepR_ge (m : PointsMap) (v : Local) (n : Nat)
    (h : ∀ i < n, (stepR m)^[i] {v} ≠ (stepR m)^[i + 1] {v}) :
    n + 1 ≤ ((stepR m)^[n] {v}).card := by
  induction n with
  | zero => simp
  | succ n ih =>
    have hlt : ((stepR m)^[n] {v}).card < ((stepR m)^[n + 1] {v}).card := by
      apply Finset.card_lt_card
      exact lt_of_le_of_ne (iterate_stepR_le_succ m _ n) (h n (Nat.lt_succ_self n))
    have := ih (fun i hi => h i (hi.trans (Nat.lt_succ_self n)))
    omega

/-- The saturation stabilizes within `m.length + 1` rounds. -/
theorem stepR_reach (m : PointsMap) (v : Local) :
    stepR m (reach m v) = reach m v := by
  by_cases hstab : ∃ i ≤ m.length, (stepR m)^[i] {v} = (stepR m)^[i + 1] {v}
  · rcases hstab with ⟨i, hi, heq⟩
    have hfix : ∀ j, (stepR m)^[i + j] {v} = (stepR m)^[i] {v} := by
      intro j
      induction j with
      | zero => rfl
      | succ j ih =>
        have : i + (j + 1) = (i + j) + 1 := by omega
        rw [this, Function.iterate_succ_apply', ih]
        exact (Function.iterate_succ_apply' (stepR m) i {v}).symm.trans heq.symm
    have hreach : reach m v = (stepR m)^[i] {v} := by
      have : m.length + 1 = i + (m.length + 1 - i) := by omega
      unfold reach
      rw [this, hfix]
    rw [hreach]
    exact (Function.iterate_succ_apply' (stepR m) i {v}).symm.trans heq.symm
  · push_neg at hstab
    have hcard := card_iterate_stepR_ge m v (m.length + 1) (by
      intro i hi
      exact hstab i (by omega))
    have hb := Finset.card_le_card (iterate_stepR_subset_bound m v (m.length + 1))
    have : (insert v (m.map (fun e => e.2)).toFinset).card ≤ m.length + 1 := by
      calc (insert v (m.map (fun e => e.2)).toFinset).card
        ≤ (m.map (fun e => e.2)).toFinset.card + 1 := Finset.card_insert_le _ _
        _ ≤ m.length + 1 := by
            have := (m.map (fun e => e.2)).toFinset_card_le
            simpa using this
    exfalso
    have : m.length + 2 ≤ m.length + 1 := le_trans hcard (le_trans hb this)
    omega

/-- The closure really is closed under recorded edges. -/
theorem reach_closed_edge (m : PointsMap) {a b : Local} (hab : (a, b) ∈ m)
    {v : Local} (ha : a ∈ reach m v) : b ∈ reach m v := by
  have : b ∈ stepR m (reach m v) := by
    apply Finset.mem_union_right
    apply Finset.mem_biUnion.2
    exact ⟨a, ha, List.mem_toFinset.2
      (List.mem_map.2 ⟨(a, b), List.mem_filter.2 ⟨hab, by simp⟩, rfl⟩)⟩
  rwa [stepR_reach] at this

/-- The closure is the least step-closed superset of its seed. -/
theorem reach_minimal (m : PointsMap) {a : Local} {S : Finset Local}
    (haS : a ∈ S) (hS : stepR m S ⊆ S) : reach m a ⊆ S := by
  unfold reach
  have : ∀ n, (stepR m)^[n] {a} ⊆ S := by
    intro n
    induction n with
    | zero => simpa
    | succ n ih =>
      rw [Function.iterate_succ_apply']
      exact (stepR_mono m ih).trans hS
  exact this (m.length + 1)

/-- A recorded edge `(d, s)` makes everything reachable from `s` reachable
from `d`. -/
theorem reach_subset_of_edge (m : PointsMap) {d s : Local} (hds : (d, s) ∈ m) :
    reach m s ⊆ reach m d := by
  apply reach_minimal m
  · exact reach_closed_edge m hds (self_mem_reach m d)
  · rw [stepR_reach]

/-- Pointwise description of `set_taint` through the alias closure. -/
theorem getTaint_setTaint (st : PState) (v : Local) (b : Bool) (u : Local) :
    getTaint (setTaint st v b) u =
      if u ∈ reach st.points v then b else getTaint st u := by
  by_cases h : u ∈ reach st.points v <;> cases b <;>
    simp [setTaint, getTaint, h, Finset.mem_sdiff, Finset.mem_union]

theorem points_setTaint (st : PState) (v : Local) (b : Bool) :
    (setTaint st v b).points = st.points := by
  cases b <;> simp [setTaint]

/-- Without recorded aliases the closure of `v` is `{v}` itself. -/
theorem reach_nil (v : Local) : reach ([] : PointsMap) v = {v} := by
  unfold reach
  have h : stepR [] {v} = {v} := by
    simp [stepR, aliasTargets]
  exact Function.iterate_fixed h _

theorem getTaint_setTaint_self (st : PState) (v : Local) (b : Bool) :
    getTaint (setTaint st v b) v = b := by
  rw [getTaint_setTaint]
  simp [self_mem_reach]

theorem getTaint_propagate_self (st : PState) (src dst : Local) :
    getTaint (propagate st src dst) dst = getTaint st src :=
  getTaint_setTaint_self st dst (getTaint st src)

/-- Reduced form of the variable-variable binary-op arm. -/
theorem getTaint_if_or (st : PState) (place la lb : Local) :
    getTaint (if getTaint st la || getTaint st lb then setTaint st place true
      else setTaint st place false) place =
      (getTaint st la || getTaint st lb) := by
  rcases h : getTaint st la || getTaint st lb with _ | _ <;>
    simp [h, getTaint_setTaint_self]

/-- The statement transfer function never discards an alias edge. -/
theorem points_t_visit_assign_mono (st : PState) (p : Local) (rv : Rvalue)
    (e : Local × Local) (he : e ∈ st.points) :
    e ∈ (t_visit_assign st p rv).points := by
  cases rv with
  | use op =>
    cases op <;> simpa [t_visit_assign, propagate, points_setTaint] using he
  | unaryOp op =>
    cases op <;> simpa [t_visit_assign, propagate, points_setTaint] using he
  | binaryOp a b =>
    cases a <;> cases b <;> simp only [t_visit_assign] <;>
      first
        | simpa [propagate, points_setTaint] using he
        | (split <;> simpa [points_setTaint] using he)
  | checkedBinaryOp a b =>
    cases a <;> cases b <;> simp only [t_visit_assign] <;>
      first
        | simpa [propagate, points_setTaint] using he
        | (split <;> simpa [points_setTaint] using he)
  | ref q => simp [t_visit_assign, addRef, he]
  | repeatRv => simpa [t_visit_assign] using he
  | threadLocalRef => simpa [t_visit_assign] using he
  | addressOf => simpa [t_visit_assign] using he
  | len => simpa [t_visit_assign] using he
  | cast => simpa [t_visit_assign] using he
  | nullaryOp => simpa [t_visit_assign] using he
  | discriminant => simpa [t_visit_assign] using he
  | aggregate => simpa [t_visit_assign] using he
  | shallowInitBox => simpa [t_visit_assign] using he
  | copyForDeref => simpa [t_visit_assign] using he

/-! ### Claim theorems -/

/-- C1: processing a call classified as Sink emits the diagnostic with the
fixed message "function `<name>` received tainted input" at the call's span
if and only if some argument that is a plain variable (a copy or move of a
local, not a constant) is currently tainted; moreover no other diagnostic
shape is ever produced, so constant arguments never trigger one. -/
theorem sink_diagnostic_iff (st : PState) (name : String) (args : List Operand)
    (span : Nat) :
    (t_visit_sink st name args span =
        some ⟨span, "function `" ++ name ++ "` received tainted input"⟩ ↔
      ∃ op ∈ args, ∃ l, op.place = some l ∧ getTaint st l = true) ∧
    ∀ d, t_visit_sink st name args span = some d →
      d = ⟨span, "function `" ++ name ++ "` received tainted input"⟩ := by
  constructor
  · constructor
    · intro h
      unfold t_visit_sink at h
      split at h
      case isTrue hc =>
        rcases List.any_eq_true.1 hc with ⟨op, hop, hp⟩
        refine ⟨op, hop, ?_⟩
        cases op with
        | copy l => exact ⟨l, rfl, by simpa [Operand.place] using hp⟩
        | move l => exact ⟨l, rfl, by simpa [Operand.place] using hp⟩
        | const => simp [Operand.place] at hp
      case isFalse => exact absurd h (by simp)
    · rintro ⟨op, hop, l, hl, ht⟩
      unfold t_visit_sink
      rw [if_pos]
      apply List.any_eq_true.2
      refine ⟨op, hop, ?_⟩
      cases op with
      | copy m =>
        have : m = l := by simpa [Operand.place] using hl
        subst this
        simpa [Operand.place] using ht
      | move m =>
        have : m = l := by simpa [Operand.place] using hl
        subst this
        simpa [Operand.place] using ht
      | const => simp [Operand.place] at hl
  · intro d hd
    unfold t_visit_sink at hd
    split at hd
    · exact (Option.some_injective _ hd).symm
    · exact absurd hd (by simp)

/-- C5: assigning a constant, a unary op on a constant, or a binary op (plain
or checked) on two constants leaves the destination untainted immediately
afterwards, whatever its prior taint. -/
theorem assign_const_strong_kill (st : PState) (place : Local) :
    getTaint (t_visit_assign st place (.use .const)) place = false ∧
    getTaint (t_visit_assign st place (.unaryOp .const)) place = false ∧
    getTaint (t_visit_assign st place (.binaryOp .const .const)) place = false ∧
    getTaint (t_visit_assign st place
      (.checkedBinaryOp .const .const)) place = false := by
  refine ⟨?_, ?_, ?_, ?_⟩ <;>
    simpa [t_visit_assign] using getTaint_setTaint_self st place false

/-- C6: for a binary op (or checked binary op) on two variable operands the
destination's taint right after the assignment is the OR of the operands'
taints read right before; with one variable and one constant operand the
destination receives the variable's taint. -/
theorem assign_binop_or_rule (st : PState) (place : Local) :
    (∀ oa ob la lb, oa.place = some la → ob.place = some lb →
      getTaint (t_visit_assign st place (.binaryOp oa ob)) place =
          (getTaint st la || getTaint st lb) ∧
      getTaint (t_visit_assign st place (.checkedBinaryOp oa ob)) place =
          (getTaint st la || getTaint st lb)) ∧
    (∀ oa la, oa.place = some la →
      getTaint (t_visit_assign st place (.binaryOp oa .const)) place =
          getTaint st la ∧
      getTaint (t_visit_assign st place (.binaryOp .const oa)) place =
          getTaint st la ∧
      getTaint (t_visit_assign st place (.checkedBinaryOp oa .const)) place =
          getTaint st la ∧
      getTaint (t_visit_assign st place (.checkedBinaryOp .const oa)) place =
          getTaint st la) := by
  constructor
  · intro oa ob la lb ha hb
    cases oa with
    | const => simp [Operand.place] at ha
    | copy x =>
      obtain rfl : x = la := by simpa [Operand.place] using ha
      cases ob with
      | const => simp [Operand.place] at hb
      | copy y =>
        obtain rfl : y = lb := by simpa [Operand.place] using hb
        constructor <;> simp only [t_visit_assign] <;>
          exact getTaint_if_or st place x y
      | move y =>
        obtain rfl : y = lb := by simpa [Operand.place] using hb
        constructor <;> simp only [t_visit_assign] <;>
          exact getTaint_if_or st place x y
    | move x =>
      obtain rfl : x = la := by simpa [Operand.place] using ha
      cases ob with
      | const => simp [Operand.place] at hb
      | copy y =>
        obtain rfl : y = lb := by simpa [Operand.place] using hb
        constructor <;> simp only [t_visit_assign] <;>
          exact getTaint_if_or st place x y
      | move y =>
        obtain rfl : y = lb := by simpa [Operand.place] using hb
        constructor <;> simp only [t_visit_assign] <;>
          exact getTaint_if_or st place x y
  · intro oa la ha
    cases oa with
    | const => simp [Operand.place] at ha
    | copy x =>
      obtain rfl : x = la := by simpa [Operand.place] using ha
      refine ⟨?_, ?_, ?_, ?_⟩ <;> simp only [t_visit_assign] <;>
        exact getTaint_propagate_self st x place
    | move x =>
      obtain rfl : x = la := by simpa [Operand.place] using ha
      refine ⟨?_, ?_, ?_, ?_⟩ <;> simp only [t_visit_assign] <;>
        exact getTaint_propagate_self st x place

/-- C7: for an assignment whose right-hand side is the copy or move of a
single variable, the destination's taint right after equals that variable's
taint right before. -/
theorem assign_copy_propagation (st : PState) (place f : Local) :
    getTaint (t_visit_assign st place (.use (.copy f))) place = getTaint st f ∧
    getTaint (t_visit_assign st place (.use (.move f))) place =
      getTaint st f := by
  exact ⟨getTaint_propagate_self st f place, getTaint_propagate_self st f place⟩

/-- C9: a reference-take assignment records the alias edge and changes no
taint; once the edge `(dst, src)` is recorded (and the transfer function
never erases an edge), every `set_taint` or `propagate` targeting `dst` also
applies the same effect to `src` and to every variable transitively reachable
from `src` through the alias map. -/
theorem addref_alias_rule (st : PState) (dst src : Local) :
    (t_visit_assign st dst (.ref src)).taint = st.taint ∧
    (dst, src) ∈ (t_visit_assign st dst (.ref src)).points ∧
    (∀ st2 : PState, ∀ p rv, (dst, src) ∈ st2.points →
      (dst, src) ∈ (t_visit_assign st2 p rv).points) ∧
    (∀ st2 : PState, (dst, src) ∈ st2.points → ∀ b : Bool,
      getTaint (setTaint st2 dst b) src = b ∧
      ∀ u ∈ reach st2.points src, getTaint (setTaint st2 dst b) u = b) ∧
    (∀ st2 : PState, (dst, src) ∈ st2.points → ∀ w : Local,
      getTaint (propagate st2 w dst) src = getTaint st2 w ∧
      ∀ u ∈ reach st2.points src,
        getTaint (propagate st2 w dst) u = getTaint st2 w) := by
  have key : ∀ st2 : PState, (dst, src) ∈ st2.points → ∀ b : Bool,
      getTaint (setTaint st2 dst b) src = b ∧
      ∀ u ∈ reach st2.points src, getTaint (setTaint st2 dst b) u = b := by
    intro st2 hmem b
    have hsrc : src ∈ reach st2.points dst :=
      reach_closed_edge st2.points hmem (self_mem_reach st2.points dst)
    constructor
    · rw [getTaint_setTaint]
      simp [hsrc]
    · intro u hu
      have : u ∈ reach st2.points dst := reach_subset_of_edge st2.points hmem hu
      rw [getTaint_setTaint]
      simp [this]
  exact ⟨by simp [t_visit_assign, addRef], by simp [t_visit_assign, addRef],
    fun st2 p rv hmem => points_t_visit_assign_mono st2 p rv (dst, src) hmem,
    key, fun st2 hmem w => key st2 hmem (getTaint st2 w)⟩

/-- C10: a call to a Sink callee leaves the taint state and the alias map
untouched and the summary cache unchanged, even when a tainted argument makes
it emit a diagnostic: the appended diagnostic is its only effect. -/
theorem sink_call_is_pure (prog : Program) (fuel : Nat) (σ : Interp)
    (ps : PState) (id : FnId) (name : String) (args : List Operand)
    (dest : Local) (span : Nat) (tgt : Option Nat)
    (h : prog.info id = some .sink) :
    stepTerm prog fuel σ ps (.call id name args dest span tgt) =
      some (⟨σ.cache, σ.diags ++ (t_visit_sink ps name args span).toList⟩,
        ps) := by
  simp [stepTerm, stepTermO, h]

/-- C10 witness: at a sink call with a tainted plain-variable argument the
diagnostic is emitted while state, alias map and cache stay intact. -/
theorem sink_call_is_pure_witness :
    stepTerm ⟨∅, fun _ => ⟨0, 0, []⟩, fun _ => some .sink⟩ 0 ⟨[], []⟩
        ⟨{3}, [(4, 5)]⟩ (.call 0 "f" [.copy 3] 1 7 none) =
      some (⟨[], [⟨7, "function `f` received tainted input"⟩]⟩,
        ⟨{3}, [(4, 5)]⟩) := by
  rw [sink_call_is_pure ⟨∅, fun _ => ⟨0, 0, []⟩, fun _ => some .sink⟩ 0
    ⟨[], []⟩ ⟨{3}, [(4, 5)]⟩ 0 "f" [.copy 3] 1 7 none rfl]
  rfl

/-- C9 witness: concrete run of the alias rule. -/
theorem addref_alias_rule_witness :
    (t_visit_assign ⟨{9}, []⟩ 1 (.ref 2)).taint = {9} ∧
    getTaint (setTaint ⟨∅, [(1, 2), (2, 6)]⟩ 1 true) 2 = true ∧
    getTaint (setTaint ⟨∅, [(1, 2), (2, 6)]⟩ 1 true) 6 = true := by
  refine ⟨(addref_alias_rule ⟨{9}, []⟩ 1 2).1,
    ((addref_alias_rule ⟨{9}, []⟩ 1 2).2.2.2.1 ⟨∅, [(1, 2), (2, 6)]⟩
      (by decide) true).1,
    ((addref_alias_rule ⟨{9}, []⟩ 1 2).2.2.2.1 ⟨∅, [(1, 2), (2, 6)]⟩
      (by decide) true).2 6 ?_⟩
  decide

/-! ### Write-back lemmas for unclassified calls -/

theorem writeBackArgs_cons (e : TaintState) (p : Option Local × Local)
    (rest : List (Option Local × Local)) (ps : PState) :
    writeBackArgs e (p :: rest) ps =
      writeBackArgs e rest
        (match p.1 with
         | some l => setTaint ps l (decide (p.2 ∈ e))
         | none => ps) := rfl

theorem points_writeBackArgs (e : TaintState)
    (am : List (Option Local × Local)) (ps : PState) :
    (writeBackArgs e am ps).points = ps.points := by
  induction am generalizing ps with
  | nil => rfl
  | cons p rest ih =>
    rw [writeBackArgs_cons]
    cases hp : p.1 with
    | none => simp [hp, ih]
    | some l => simp [hp, ih, points_setTaint]

theorem getTaint_writeBackArgs_untouched (e : TaintState)
    (am : List (Option Local × Local)) (ps : PState) (hp : ps.points = [])
    (u : Local) (hu : ∀ pr ∈ am, pr.1 ≠ some u) :
    getTaint (writeBackArgs e am ps) u = getTaint ps u := by
  induction am generalizing ps with
  | nil => rfl
  | cons p rest ih =>
    rw [writeBackArgs_cons]
    cases hp1 : p.1 with
    | none =>
      simp only [hp1]
      exact ih ps hp (fun pr hpr => hu pr (List.mem_cons_of_mem _ hpr))
    | some l =>
      simp only [hp1]
      have hlu : l ≠ u := by
        intro h
        exact hu p (List.mem_cons_self _ _) (by rw [hp1, h])
      have hps' : (setTaint ps l (decide (p.2 ∈ e))).points = [] := by
        rw [points_setTaint, hp]
      rw [ih _ hps' (fun pr hpr => hu pr (List.mem_cons_of_mem _ hpr)),
        getTaint_setTaint, hp, reach_nil]
      simp [Ne.symm hlu]

theorem getTaint_writeBackArgs_mem (e : TaintState)
    (am : List (Option Local × Local)) (ps : PState) (hp : ps.points = [])
    (hnd : (am.filterMap (fun pr => pr.1)).Nodup)
    {l f : Local} (hmem : (some l, f) ∈ am) :
    getTaint (writeBackArgs e am ps) l = decide (f ∈ e) := by
  induction am generalizing ps with
  | nil => simp at hmem
  | cons p rest ih =>
    rw [writeBackArgs_cons]
    rcases List.mem_cons.1 hmem with heq | htail
    · subst heq
      simp only
      have hnotin : ∀ pr ∈ rest, pr.1 ≠ some l := by
        intro pr hpr hcontra
        have : l ∈ rest.filterMap (fun pr => pr.1) :=
          List.mem_filterMap.2 ⟨pr, hpr, hcontra⟩
        have hnd' := hnd
        simp only [List.filterMap_cons] at hnd'
        exact (List.nodup_cons.1 hnd').1 this
      have hps' : (setTaint ps l (decide (f ∈ e))).points = [] := by
        rw [points_setTaint, hp]
      rw [getTaint_writeBackArgs_untouched e rest _ hps' l hnotin,
        getTaint_setTaint_self]
    · cases hp1 : p.1 with
      | none =>
        simp only [hp1]
        refine ih _ hp ?_ htail
        simpa [List.filterMap_cons, hp1] using hnd
      | some m =>
        simp only [hp1]
        have hnd' : (rest.filterMap (fun pr => pr.1)).Nodup := by
          have := hnd
          simp only [List.filterMap_cons, hp1] at this
          exact (List.nodup_cons.1 this).2
        have hps' : (setTaint ps m (decide (p.2 ∈ e))).points = [] := by
          rw [points_setTaint, hp]
        exact ih _ hps' hnd' htail

theorem filterMap_fst_zip {α β : Type} (l : List (Option α)) (l' : List β)
    (h : l.length ≤ l'.length) :
    ((l.zip l').filterMap (fun pr => pr.1)) = l.filterMap id := by
  induction l generalizing l' with
  | nil => simp
  | cons a as ih =>
    cases l' with
    | nil => simp at h
    | cons b bs =>
      simp only [List.zip_cons_cons, List.filterMap_cons]
      cases a <;> simp_all

/-- C2: when a call to an unclassified callee obtains a summary, the
destination is marked tainted exactly when the summary's return place
(index 0) is tainted, and each plain-variable actual is strongly overwritten
with the exit taint of its positionally corresponding formal parameter
(locals `1..argCount`), regardless of its prior taint.  Stated for
alias-free caller states with pairwise distinct plain-variable arguments not
containing the destination, so that the sequential overwrites are
observable per variable. -/
theorem fn_call_summary_update (prog : Program) (fuel : Nat) (σ σ2 : Interp)
    (ps : PState) (args : List Operand) (fid : FnId) (dest : Local)
    (endState : TaintState)
    (hsum : t_function_summary prog fuel σ fid (initVector ps args) =
      some (σ2, some endState))
    (hlen : args.length = (prog.bodies fid).argCount)
    (hpts : ps.points = [])
    (hnd : (args.filterMap Operand.place).Nodup)
    (hdest : ∀ l ∈ args.filterMap Operand.place, l ≠ dest) :
    ∃ ps2, t_fn_call_analysis prog fuel σ ps args fid dest = some (σ2, ps2) ∧
      getTaint ps2 dest =
        (if 0 ∈ endState then true else getTaint ps dest) ∧
      ∀ i, ∀ hi : i < args.length, ∀ l,
        (args.get ⟨i, hi⟩).place = some l →
          getTaint ps2 l = decide ((1 + i) ∈ endState) := by
  have hcall : t_fn_call_analysis prog fuel σ ps args fid dest =
      some (σ2, writeBackArgs endState
        ((args.map Operand.place).zip (argLocals (prog.bodies fid)))
        (if 0 ∈ endState then setTaint ps dest true else ps)) := by
    unfold t_fn_call_analysis t_fn_call_analysisO
    rw [show (summaryAtFuel prog fuel σ fid (initVector ps args)) =
      some (σ2, some endState) from hsum]
  have hps1pts : (if 0 ∈ endState then setTaint ps dest true
      else ps).points = [] := by
    split
    · rw [points_setTaint, hpts]
    · exact hpts
  have hamnd : (((args.map Operand.place).zip
      (argLocals (prog.bodies fid))).filterMap (fun pr => pr.1)).Nodup := by
    rw [filterMap_fst_zip _ _ (by
      simp [argLocals, List.length_range', hlen])]
    have heq : (args.map Operand.place).filterMap (fun o => o) =
        args.filterMap Operand.place := by
      rw [List.filterMap_map]
      rfl
    exact heq ▸ hnd
  refine ⟨writeBackArgs endState
    ((args.map Operand.place).zip (argLocals (prog.bodies fid)))
    (if 0 ∈ endState then setTaint ps dest true else ps), hcall, ?_, ?_⟩
  · have huntouched : ∀ pr ∈ (args.map Operand.place).zip
        (argLocals (prog.bodies fid)), pr.1 ≠ some dest := by
      intro pr hpr hcontra
      rcases List.of_mem_zip hpr with ⟨hfst, _⟩
      rcases List.mem_map.1 hfst with ⟨op, hop, hfst'⟩
      have : dest ∈ args.filterMap Operand.place :=
        List.mem_filterMap.2 ⟨op, hop, by rw [hfst', hcontra]⟩
      exact hdest dest this rfl
    rw [getTaint_writeBackArgs_untouched endState _ _ hps1pts dest
      huntouched]
    split
    · exact getTaint_setTaint_self ps dest true
    · rfl
  · intro i hi l hl
    have hilen : i < ((args.map Operand.place).zip
        (argLocals (prog.bodies fid))).length := by
      rw [List.length_zip, List.length_map, argLocals, List.length_range']
      omega
    have hmem : (some l, 1 + i) ∈ (args.map Operand.place).zip
        (argLocals (prog.bodies fid)) := by
      have hi2 : i < (args.map Operand.place).length := by
        rw [List.length_map]
        exact hi
      have hi3 : i < (argLocals (prog.bodies fid)).length := by
        rw [argLocals, List.length_range']
        omega
      have hpair : ((args.map Operand.place).zip
          (argLocals (prog.bodies fid)))[i] = (some l, 1 + i) := by
        rw [List.getElem_zip]
        have h1 : (args.map Operand.place)[i] = some l := by
          rw [List.getElem_map]
          have h0 : args[i] = args.get ⟨i, hi⟩ := rfl
          rw [h0, hl]
        have h2 : (argLocals (prog.bodies fid))[i] = 1 + i := by
          simp [argLocals, List.getElem_range']
        rw [h1, h2]
      exact hpair ▸ List.getElem_mem hilen
    exact getTaint_writeBackArgs_mem endState _ _ hps1pts hamnd hmem

/-- C2 witness: a cached summary `{0, 1}` for a one-parameter callee marks
the destination tainted and overwrites the tainted actual with the formal's
exit taint. -/
theorem fn_call_summary_update_witness :
    ∃ ps2, t_fn_call_analysis
        ⟨{0}, fun _ => ⟨2, 1, [⟨[], .ret⟩]⟩, fun _ => none⟩ 0
        ⟨[((0, [some true]), some {0, 1})], []⟩ ⟨{4}, []⟩ [.copy 4] 0 9 =
        some (⟨[((0, [some true]), some {0, 1})], []⟩, ps2) ∧
      getTaint ps2 9 =
        (if 0 ∈ ({0, 1} : TaintState) then true
         else getTaint ⟨{4}, []⟩ 9) ∧
      ∀ i, ∀ hi : i < [Operand.copy 4].length, ∀ l,
        ([Operand.copy 4].get ⟨i, hi⟩).place = some l →
          getTaint ps2 l = decide ((1 + i) ∈ ({0, 1} : TaintState)) :=
  fn_call_summary_update ⟨{0}, fun _ => ⟨2, 1, [⟨[], .ret⟩]⟩, fun _ => none⟩
    0 ⟨[((0, [some true]), some {0, 1})], []⟩
    ⟨[((0, [some true]), some {0, 1})], []⟩ ⟨{4}, []⟩ [.copy 4] 0 9 {0, 1}
    (by decide) (by decide) rfl (by decide) (by decide)

/-- C6 witness: concrete binary-op taint reads. -/
theorem assign_binop_or_rule_witness :
    getTaint (t_visit_assign ⟨{2}, []⟩ 7 (.binaryOp (.copy 2) (.copy 3))) 7 =
        true ∧
    getTaint (t_visit_assign ⟨{2}, []⟩ 7 (.binaryOp (.move 3) .const)) 7 =
        false := by
  constructor
  · rw [((assign_binop_or_rule ⟨{2}, []⟩ 7).1 (.copy 2) (.copy 3) 2 3
      rfl rfl).1]
    decide
  · rw [((assign_binop_or_rule ⟨{2}, []⟩ 7).2 (.move 3) 3 rfl).1]
    decide

/-! ### Summary cache protocol -/

theorem cacheLookup_insert_self (c : Cache) (k : CacheKey)
    (v : Option TaintState) : cacheLookup (cacheInsert c k v) k = some v := by
  unfold cacheLookup cacheInsert
  rw [List.find?_cons_of_pos _ (by simp)]
  rfl

theorem cacheLookup_insert_ne (c : Cache) (k k' : CacheKey)
    (v : Option TaintState) (h : k ≠ k') :
    cacheLookup (cacheInsert c k v) k' = cacheLookup c k' := by
  unfold cacheLookup cacheInsert
  rw [List.find?_cons_of_neg _ (by simp [h])]

/-- C3: the summary-cache protocol of `t_function_summary`.  On a missing
key: the `InProgress` placeholder (`none`) is inserted under the key before
the nested fixpoint analysis starts, so it is visible to every nested lookup
of the same key, and such a lookup returns "no summary" at once without
touching the cache; after the nested analysis the entry is overwritten with
`Done` of the returned summary, which is the state at the end of the block
last visited in reverse postorder of the callee body. -/
theorem summary_cache_protocol (prog : Program) (σ : Interp) (fid : FnId)
    (init : InitSet) (habsent : cacheLookup σ.cache (fid, init) = none) :
    (∀ fuel2 σ2, cacheLookup σ2.cache (fid, init) = some none →
      t_function_summary prog fuel2 σ2 fid init = some (σ2, none)) ∧
    cacheLookup (cacheInsert σ.cache (fid, init) none) (fid, init) =
      some none ∧
    (∀ f, t_function_summary prog (f + 1) σ fid init =
      match analyzeNested prog f
          ⟨cacheInsert σ.cache (fid, init) none, σ.diags⟩ fid init with
      | none => none
      | some (σ2, state) =>
        some (⟨cacheInsert σ2.cache (fid, init) state, σ2.diags⟩, state)) ∧
    (∀ f σf s, t_function_summary prog (f + 1) σ fid init = some (σf, s) →
      cacheLookup σf.cache (fid, init) = some s) ∧
    (∀ f σ1 σ2 es last blk,
      engineIter prog f (prog.bodies fid) (rpo (prog.bodies fid))
        (roundBound (prog.bodies fid)) σ1
        ⟨initialEntries init (prog.bodies fid), []⟩ = some (σ2, es) →
      (rpo (prog.bodies fid)).getLast? = some last →
      (prog.bodies fid).blocks[last]? = some blk →
      analyzeNested prog f σ1 fid init =
        (blockExit prog f σ2 (es.entries.getD last ∅) es.points blk).map
          (fun r => (r.1, some r.2.taint))) := by
  have hinprogress : ∀ fuel2 σ2, cacheLookup σ2.cache (fid, init) =
      some none → t_function_summary prog fuel2 σ2 fid init =
      some (σ2, none) := by
    intro fuel2 σ2 h
    cases fuel2 <;> simp [t_function_summary, summaryAtFuel, h]
  have hmiss : ∀ f, t_function_summary prog (f + 1) σ fid init =
      match analyzeNested prog f
          ⟨cacheInsert σ.cache (fid, init) none, σ.diags⟩ fid init with
      | none => none
      | some (σ2, state) =>
        some (⟨cacheInsert σ2.cache (fid, init) state, σ2.diags⟩, state) := by
    intro f
    simp [t_function_summary, summaryAtFuel, habsent, analyzeNested]
  refine ⟨hinprogress, cacheLookup_insert_self _ _ _, hmiss, ?_, ?_⟩
  · intro f σf s hrun
    rw [hmiss f] at hrun
    cases hnest : analyzeNested prog f
        ⟨cacheInsert σ.cache (fid, init) none, σ.diags⟩ fid init with
    | none => rw [hnest] at hrun; exact absurd hrun (by simp)
    | some r =>
      rw [hnest] at hrun
      obtain ⟨σ2, state⟩ := r
      simp only at hrun
      obtain ⟨hσf, hs⟩ := Prod.mk.injEq .. ▸ (Option.some_injective _ hrun)
      rw [← hσf, ← hs]
      exact cacheLookup_insert_self _ _ _
  · intro f σ1 σ2 es last blk hiter hlast hblk
    unfold analyzeNested analyzeNestedO
    unfold engineIter at hiter
    simp only [hiter, hlast, hblk]
    cases hbe : blockExitO prog (summaryAtFuel prog f) σ2
        (es.entries.getD last ∅) es.points blk with
    | none =>
      simp only [List.getD, List.get?_eq_getElem?] at hbe ⊢
      simp [blockExit, List.getD, List.get?_eq_getElem?, hbe]
    | some r =>
      simp only [List.getD, List.get?_eq_getElem?] at hbe ⊢
      simp [blockExit, List.getD, List.get?_eq_getElem?, hbe]

/-- C3 witness: a lookup observing `InProgress` yields "no summary" with the
cache untouched, and after a fresh computation the key is bound to `Done` of
the exit state. -/
theorem summary_cache_protocol_witness :
    t_function_summary ⟨{0}, fun _ => ⟨2, 1, [⟨[], .ret⟩]⟩, fun _ => none⟩ 3
        ⟨[((0, [some true]), none)], []⟩ 0 [some true] =
      some (⟨[((0, [some true]), none)], []⟩, none) ∧
    cacheLookup [((0, [some true]), some ({1} : TaintState)),
        ((0, [some true]), none)] (0, [some true]) = some (some {1}) := by
  constructor
  · exact (summary_cache_protocol
      ⟨{0}, fun _ => ⟨2, 1, [⟨[], .ret⟩]⟩, fun _ => none⟩ ⟨[], []⟩ 0
      [some true] (by decide)).1 3 ⟨[((0, [some true]), none)], []⟩
      (by decide)
  · exact (summary_cache_protocol
      ⟨{0}, fun _ => ⟨2, 1, [⟨[], .ret⟩]⟩, fun _ => none⟩ ⟨[], []⟩ 0
      [some true] (by decide)).2.2.2.1 0
      ⟨[((0, [some true]), some {1}), ((0, [some true]), none)], []⟩
      (some {1}) (by decide)

/-! ### Termination: cache measure and key-space finiteness -/

theorem cacheLe_refl (c : Cache) : cacheLe c c := fun _ h => h

theorem cacheLe_trans {a b c : Cache} (h1 : cacheLe a b) (h2 : cacheLe b c) :
    cacheLe a c := fun k hk => h2 k (h1 k hk)

theorem cacheLe_insert (c : Cache) (k : CacheKey) (v : Option TaintState) :
    cacheLe c (cacheInsert c k v) := by
  intro k2 hk2
  by_cases h : k = k2
  · subst h
    rw [cacheLookup_insert_self]
    rfl
  · rw [cacheLookup_insert_ne _ _ _ _ h]
    exact hk2

theorem missingKeys_anti (prog : Program) {c c2 : Cache} (h : cacheLe c c2) :
    missingKeys prog c2 ⊆ missingKeys prog c := by
  intro k hk
  rw [missingKeys, Finset.mem_filter] at hk ⊢
  refine ⟨hk.1, ?_⟩
  cases hcl : cacheLookup c k with
  | none => rfl
  | some v =>
    have h2 := h k (by rw [hcl]; rfl)
    rw [hk.2] at h2
    simp at h2

theorem missingKeys_insert (prog : Program) (c : Cache) (k : CacheKey)
    (v : Option TaintState) (hk : cacheLookup c k = none) :
    missingKeys prog (cacheInsert c k v) = (missingKeys prog c).erase k := by
  ext k2
  simp only [missingKeys, Finset.mem_filter, Finset.mem_erase]
  constructor
  · rintro ⟨hu, hl⟩
    have hne : k2 ≠ k := by
      intro h
      subst h
      rw [cacheLookup_insert_self] at hl
      exact absurd hl (by simp)
    rw [cacheLookup_insert_ne _ _ _ _ (Ne.symm hne)] at hl
    exact ⟨hne, hu, hl⟩
  · rintro ⟨hne, hu, hl⟩
    exact ⟨hu, by rw [cacheLookup_insert_ne _ _ _ _ (Ne.symm hne)]; exact hl⟩

theorem mem_initSetsExact (init : InitSet) :
    init ∈ initSetsExact init.length := by
  induction init with
  | nil => simp [initSetsExact]
  | cons o rest ih =>
    simp only [List.length_cons, initSetsExact, Finset.mem_image]
    refine ⟨(o, rest), ?_, rfl⟩
    rw [Finset.mem_product]
    refine ⟨?_, ih⟩
    cases o with
    | none => simp
    | some b => cases b <;> simp

theorem mem_initSetsUpTo (init : InitSet) (L : Nat) (h : init.length ≤ L) :
    init ∈ initSetsUpTo L := by
  rw [initSetsUpTo, Finset.mem_biUnion]
  exact ⟨init.length, Finset.mem_range.2 (by omega), mem_initSetsExact init⟩

theorem key_mem_universe (prog : Program) (fid : FnId) (init : InitSet)
    (hf : fid ∈ prog.fns) (hl : init.length ≤ maxCallArity prog) :
    (fid, init) ∈ keyUniverse prog := by
  rw [keyUniverse, Finset.mem_product]
  exact ⟨hf, mem_initSetsUpTo init _ hl⟩

theorem le_foldr_max {l : List Nat} {x : Nat} (hx : x ∈ l) :
    x ≤ l.foldr max 0 := by
  induction l with
  | nil => simp at hx
  | cons a rest ih =>
    rcases List.mem_cons.1 hx with rfl | h
    · exact le_max_left _ _
    · exact le_trans (ih h) (le_max_right _ _)

theorem callArity_le_maxCallArity (prog : Program) {g : FnId}
    (hg : g ∈ prog.fns) {blk : BasicBlockData}
    (hblk : blk ∈ (prog.bodies g).blocks) :
    callArity blk.term ≤ maxCallArity prog := by
  have h1 : callArity blk.term ≤
      ((prog.bodies g).blocks.map (fun b => callArity b.term)).foldr max 0 :=
    le_foldr_max (List.mem_map.2 ⟨blk, hblk, rfl⟩)
  have h2 : ((prog.bodies g).blocks.map (fun b => callArity b.term)).foldr
      max 0 ≤ prog.fns.sup (fun f =>
        ((prog.bodies f).blocks.map (fun b => callArity b.term)).foldr
          max 0) := by
    apply Finset.le_sup hg
  rw [maxCallArity]
  exact le_trans h1 h2

theorem termOk_of_wf (prog : Program) {g : FnId} (hg : g ∈ prog.fns)
    (hok : calleesOk prog (prog.bodies g) = true) {blk : BasicBlockData}
    (hblk : blk ∈ (prog.bodies g).blocks) : TermOk prog blk.term := by
  intro callee name args dest span tgt ht hinfo
  constructor
  · rw [calleesOk, List.all_eq_true] at hok
    have h2 := hok blk hblk
    rw [ht] at h2
    simp only at h2
    rw [hinfo] at h2
    simpa using h2
  · have h2 := callArity_le_maxCallArity prog hg hblk
    rw [ht] at h2
    simpa [callArity] using h2

/-! ### Termination: state boundedness through the transfer function -/

theorem reach_bounded {n : Nat} {m : PointsMap} (hm : pointsBounded n m)
    {v : Local} (hv : v < n) : ∀ x ∈ reach m v, x < n := by
  intro x hx
  have h2 := iterate_stepR_subset_bound m v (m.length + 1) hx
  rcases Finset.mem_insert.1 h2 with rfl | h3
  · exact hv
  · rcases List.mem_map.1 (List.mem_toFinset.1 h3) with ⟨e, he, rfl⟩
    exact (hm e he).2

theorem taintBounded_setTaint {n : Nat} {st : PState}
    (ht : taintBounded n st.taint) (hp : pointsBounded n st.points)
    {v : Local} (hv : v < n) (b : Bool) :
    taintBounded n (setTaint st v b).taint := by
  intro x hx
  cases b with
  | false =>
    simp only [setTaint, Bool.false_eq_true, if_neg, ite_false] at hx
    exact ht x (Finset.mem_sdiff.1 hx).1
  | true =>
    simp only [setTaint, ite_true] at hx
    rcases Finset.mem_union.1 hx with h | h
    · exact ht x h
    · exact reach_bounded hp hv x h

theorem bounded_t_visit_assign {n : Nat} {st : PState}
    (ht : taintBounded n st.taint) (hp : pointsBounded n st.points)
    {place : Local} {rv : Rvalue}
    (hwfp : place < n) (hwfr : rvalueLocalsLt n rv = true) :
    taintBounded n (t_visit_assign st place rv).taint ∧
    pointsBounded n (t_visit_assign st place rv).points := by
  have hsets : ∀ b, taintBounded n (setTaint st place b).taint ∧
      pointsBounded n (setTaint st place b).points := by
    intro b
    refine ⟨taintBounded_setTaint ht hp hwfp b, ?_⟩
    rw [points_setTaint]
    exact hp
  have hprop : ∀ q, taintBounded n (propagate st q place).taint ∧
      pointsBounded n (propagate st q place).points := fun q =>
    hsets (getTaint st q)
  cases rv with
  | use op => cases op <;> simp only [t_visit_assign] <;>
      first | exact hsets false | exact hprop _
  | unaryOp op => cases op <;> simp only [t_visit_assign] <;>
      first | exact hsets false | exact hprop _
  | binaryOp a b =>
    cases a <;> cases b <;> simp only [t_visit_assign] <;>
      first
        | exact hsets false
        | exact hprop _
        | (split <;> first | exact hsets true | exact hsets false)
  | checkedBinaryOp a b =>
    cases a <;> cases b <;> simp only [t_visit_assign] <;>
      first
        | exact hsets false
        | exact hprop _
        | (split <;> first | exact hsets true | exact hsets false)
  | ref q =>
    simp only [t_visit_assign, addRef]
    refine ⟨ht, ?_⟩
    intro e he
    rcases List.mem_cons.1 he with rfl | h
    · exact ⟨hwfp, by simpa [rvalueLocalsLt] using hwfr⟩
    · exact hp e h
  | repeatRv => exact ⟨ht, hp⟩
  | threadLocalRef => exact ⟨ht, hp⟩
  | addressOf => exact ⟨ht, hp⟩
  | len => exact ⟨ht, hp⟩
  | cast => exact ⟨ht, hp⟩
  | nullaryOp => exact ⟨ht, hp⟩
  | discriminant => exact ⟨ht, hp⟩
  | aggregate => exact ⟨ht, hp⟩
  | shallowInitBox => exact ⟨ht, hp⟩
  | copyForDeref => exact ⟨ht, hp⟩

theorem bounded_applyStmts {n : Nat} {ps : PState}
    (ht : taintBounded n ps.taint) (hp : pointsBounded n ps.points)
    {ss : List Stmt} (hwf : ∀ s ∈ ss, stmtWF n s = true) :
    taintBounded n (applyStmts ps ss).taint ∧
    pointsBounded n (applyStmts ps ss).points := by
  induction ss generalizing ps with
  | nil => exact ⟨ht, hp⟩
  | cons s rest ih =>
    have hstep : taintBounded n (applyStmt ps s).taint ∧
        pointsBounded n (applyStmt ps s).points := by
      cases s with
      | assign place rv =>
        have hw := hwf _ (List.mem_cons_self _ _)
        rw [stmtWF, Bool.and_eq_true, decide_eq_true_eq] at hw
        exact bounded_t_visit_assign ht hp hw.1 hw.2
      | other => exact ⟨ht, hp⟩
    have : applyStmts ps (s :: rest) = applyStmts (applyStmt ps s) rest := rfl
    rw [this]
    exact ih hstep.1 hstep.2 (fun s2 hs2 => hwf s2 (List.mem_cons_of_mem _ hs2))

theorem bounded_writeBackArgs {n : Nat} {ps : PState} (e : TaintState)
    {am : List (Option Local × Local)}
    (ht : taintBounded n ps.taint) (hp : pointsBounded n ps.points)
    (ham : ∀ pr ∈ am, ∀ l, pr.1 = some l → l < n) :
    taintBounded n (writeBackArgs e am ps).taint ∧
    pointsBounded n (writeBackArgs e am ps).points := by
  induction am generalizing ps with
  | nil => exact ⟨ht, hp⟩
  | cons p rest ih =>
    rw [writeBackArgs_cons]
    cases hp1 : p.1 with
    | none =>
      simp only [hp1]
      exact ih ht hp (fun pr hpr => ham pr (List.mem_cons_of_mem _ hpr))
    | some l =>
      simp only [hp1]
      have hl : l < n := ham p (List.mem_cons_self _ _) l hp1
      refine ih (taintBounded_setTaint ht hp hl _) ?_
        (fun pr hpr => ham pr (List.mem_cons_of_mem _ hpr))
      rw [points_setTaint]
      exact hp

theorem bounded_stepTermO {prog : Program} {oracle : SummaryOracle}
    {σ σ2 : Interp} {ps ps2 : PState} {t : Terminator} {n : Nat}
    (ht : taintBounded n ps.taint) (hp : pointsBounded n ps.points)
    (hwf : termWF n t = true)
    (hstep : stepTermO prog oracle σ ps t = some (σ2, ps2)) :
    taintBounded n ps2.taint ∧ pointsBounded n ps2.points := by
  cases t with
  | goto _ => cases hstep; exact ⟨ht, hp⟩
  | switchInt _ => cases hstep; exact ⟨ht, hp⟩
  | ret => cases hstep; exact ⟨ht, hp⟩
  | assertT _ => cases hstep; exact ⟨ht, hp⟩
  | unmodeled _ => cases hstep; exact ⟨ht, hp⟩
  | call callee name args dest span tgt =>
    rw [termWF, Bool.and_eq_true, decide_eq_true_eq] at hwf
    obtain ⟨hdest, hargs⟩ := hwf
    simp only [stepTermO] at hstep
    cases hinfo : prog.info callee with
    | some kind =>
      rw [hinfo] at hstep
      cases kind with
      | source =>
        simp only at hstep
        cases hstep
        exact ⟨taintBounded_setTaint ht hp hdest true, by
          rw [points_setTaint]; exact hp⟩
      | sanitizer =>
        simp only at hstep
        cases hstep
        exact ⟨taintBounded_setTaint ht hp hdest false, by
          rw [points_setTaint]; exact hp⟩
      | sink =>
        simp only at hstep
        cases hstep
        exact ⟨ht, hp⟩
    | none =>
      rw [hinfo] at hstep
      simp only [t_fn_call_analysisO] at hstep
      cases horacle : oracle σ callee (initVector ps args) with
      | none => rw [horacle] at hstep; exact absurd hstep (by simp)
      | some out =>
        rw [horacle] at hstep
        obtain ⟨σ3, summ⟩ := out
        cases summ with
        | none =>
          simp only at hstep
          cases hstep
          exact ⟨ht, hp⟩
        | some endState =>
          simp only at hstep
          cases hstep
          have hps1 : taintBounded n (if 0 ∈ endState then
              setTaint ps dest true else ps).taint ∧
              pointsBounded n (if 0 ∈ endState then
              setTaint ps dest true else ps).points := by
            split
            · exact ⟨taintBounded_setTaint ht hp hdest true, by
                rw [points_setTaint]; exact hp⟩
            · exact ⟨ht, hp⟩
          refine bounded_writeBackArgs endState hps1.1 hps1.2 ?_
          intro pr hpr l hprl
          rcases List.of_mem_zip hpr with ⟨hfst, _⟩
          rcases List.mem_map.1 hfst with ⟨op, hop, hfst2⟩
          rw [List.all_eq_true] at hargs
          have := hargs op hop
          cases op with
          | copy m =>
            have hm : m = l := by
              rw [← hfst2] at hprl
              simpa [Operand.place] using hprl
            subst hm
            simpa [operandLocalsLt] using this
          | move m =>
            have hm : m = l := by
              rw [← hfst2] at hprl
              simpa [Operand.place] using hprl
            subst hm
            simpa [operandLocalsLt] using this
          | const =>
            rw [← hfst2] at hprl
            simp [Operand.place] at hprl

/-! ### Termination: monotone growth of the block-entry states -/

theorem entriesLe_refl (l : List TaintState) : entriesLe l l :=
  ⟨rfl, fun _ => subset_rfl⟩

theorem entriesLe_trans {a b c : List TaintState} (h1 : entriesLe a b)
    (h2 : entriesLe b c) : entriesLe a c :=
  ⟨h1.1.trans h2.1, fun i => (h1.2 i).trans (h2.2 i)⟩

theorem entriesLe_set (l : List TaintState) (i : Nat) (x : TaintState)
    (hx : l.getD i ∅ ⊆ x) : entriesLe l (l.set i x) := by
  refine ⟨(List.length_set l i x).symm, ?_⟩
  intro j
  rw [List.getD_eq_getElem?_getD, List.getD_eq_getElem?_getD,
    List.getElem?_set]
  by_cases hij : i = j
  · subst hij
    rw [if_pos rfl]
    by_cases hlen : i < l.length
    · rw [if_pos hlen]
      rw [List.getD_eq_getElem?_getD] at hx
      exact hx
    · rw [if_neg hlen]
      have : l[i]? = none := by
        rw [List.getElem?_eq_none_iff]
        omega
      rw [this]
  · rw [if_neg hij]

theorem entriesLe_joinSuccs (entries : List TaintState) (t : TaintState)
    (succs : List Nat) : entriesLe entries (joinSuccs entries t succs) := by
  induction succs generalizing entries with
  | nil => exact entriesLe_refl _
  | cons s rest ih =>
    exact entriesLe_trans
      (entriesLe_set entries s _ Finset.subset_union_left) (ih _)

theorem taintBounded_getD {n : Nat} {l : List TaintState}
    (hb : entriesBounded n l) (i : Nat) : taintBounded n (l.getD i ∅) := by
  rw [List.getD_eq_getElem?_getD]
  cases hli : l[i]? with
  | none => intro x hx; simp at hx
  | some y =>
    simp only [Option.getD_some]
    exact hb y (List.getElem?_mem hli)

theorem entriesBounded_joinSuccs {n : Nat} {entries : List TaintState}
    (hb : entriesBounded n entries) {t : TaintState} (htb : taintBounded n t)
    (succs : List Nat) : entriesBounded n (joinSuccs entries t succs) := by
  induction succs generalizing entries with
  | nil => exact hb
  | cons s rest ih =>
    refine ih ?_
    intro y hy
    rcases List.mem_or_eq_of_mem_set hy with h | rfl
    · exact hb y h
    · intro x hx
      rcases Finset.mem_union.1 hx with h | h
      · exact taintBounded_getD hb s x h
      · exact htb x h

theorem sumCard_le_of_entriesLe {a b : List TaintState} (h : entriesLe a b) :
    sumCard a ≤ sumCard b := by
  induction a generalizing b with
  | nil => exact Nat.zero_le _
  | cons x xs ih =>
    cases b with
    | nil => exact absurd h.1 (by simp)
    | cons y ys =>
      have hx : x ⊆ y := h.2 0
      have htail : entriesLe xs ys := ⟨by simpa using h.1, fun i => h.2 (i + 1)⟩
      simp only [sumCard, List.map_cons, List.sum_cons]
      exact Nat.add_le_add (Finset.card_le_card hx) (ih htail)

theorem sumCard_lt_of_entriesLe_ne {a b : List TaintState} (h : entriesLe a b)
    (hne : a ≠ b) : sumCard a < sumCard b := by
  induction a generalizing b with
  | nil =>
    cases b with
    | nil => exact absurd rfl hne
    | cons y ys => exact absurd h.1 (by simp)
  | cons x xs ih =>
    cases b with
    | nil => exact absurd h.1 (by simp)
    | cons y ys =>
      have hx : x ⊆ y := h.2 0
      have htail : entriesLe xs ys := ⟨by simpa using h.1, fun i => h.2 (i + 1)⟩
      simp only [sumCard, List.map_cons, List.sum_cons]
      by_cases hxy : x = y
      · subst hxy
        have hne2 : xs ≠ ys := by
          intro h2
          exact hne (by rw [h2])
        exact Nat.add_lt_add_left (ih htail hne2) _
      · have h1 : x.card < y.card := Finset.card_lt_card (lt_of_le_of_ne hx hxy)
        have h2 : sumCard xs ≤ sumCard ys := sumCard_le_of_entriesLe htail
        simp only [sumCard] at h2
        omega

theorem sumCard_le_bound {n : Nat} {l : List TaintState}
    (hb : entriesBounded n l) : sumCard l ≤ l.length * n := by
  induction l with
  | nil => simp [sumCard]
  | cons x xs ih =>
    have hx : x.card ≤ n := by
      have hsub : x ⊆ Finset.range n := by
        intro y hy
        exact Finset.mem_range.2 (hb x (List.mem_cons_self _ _) y hy)
      calc x.card ≤ (Finset.range n).card := Finset.card_le_card hsub
        _ = n := Finset.card_range n
    have htail := ih (fun t ht => hb t (List.mem_cons_of_mem _ ht))
    simp only [sumCard, List.map_cons, List.sum_cons, List.length_cons]
    simp only [sumCard] at htail
    calc x.card + (xs.map Finset.card).sum ≤ n + xs.length * n := by omega
      _ = (xs.length + 1) * n := by ring

theorem engineRoundO_entriesLe {prog : Program} {oracle : SummaryOracle}
    {body : Body} {σ σ2 : Interp} {es es2 : EngineState}
    {order : List Nat}
    (h : engineRoundO prog oracle body σ es order = some (σ2, es2)) :
    entriesLe es.entries es2.entries := by
  induction order generalizing σ es with
  | nil =>
    simp only [engineRoundO] at h
    cases h
    exact entriesLe_refl _
  | cons b rest ih =>
    simp only [engineRoundO] at h
    cases hblk : body.blocks[b]? with
    | none =>
      simp only [hblk] at h
      exact ih h
    | some blk =>
      simp only [hblk] at h
      cases hbe : blockExitO prog oracle σ (es.entries.getD b ∅) es.points
          blk with
      | none => simp only [hbe] at h; exact absurd h (by simp)
      | some out =>
        simp only [hbe] at h
        obtain ⟨σ3, ps⟩ := out
        simp only at h
        exact entriesLe_trans (entriesLe_joinSuccs _ _ _) (ih h)

theorem engineRoundO_bounded {prog : Program} {oracle : SummaryOracle}
    {body : Body} {σ σ2 : Interp} {es es2 : EngineState} {order : List Nat}
    (hwf : ∀ blk ∈ body.blocks,
      (∀ st ∈ blk.stmts, stmtWF body.numLocals st = true) ∧
      termWF body.numLocals blk.term = true)
    (hbe : entriesBounded body.numLocals es.entries)
    (hbp : pointsBounded body.numLocals es.points)
    (h : engineRoundO prog oracle body σ es order = some (σ2, es2)) :
    entriesBounded body.numLocals es2.entries ∧
    pointsBounded body.numLocals es2.points := by
  induction order generalizing σ es with
  | nil =>
    simp only [engineRoundO] at h
    cases h
    exact ⟨hbe, hbp⟩
  | cons b rest ih =>
    simp only [engineRoundO] at h
    cases hblk : body.blocks[b]? with
    | none =>
      simp only [hblk] at h
      exact ih hbe hbp h
    | some blk =>
      simp only [hblk] at h
      cases hexit : blockExitO prog oracle σ (es.entries.getD b ∅) es.points
          blk with
      | none => simp only [hexit] at h; exact absurd h (by simp)
      | some out =>
        simp only [hexit] at h
        obtain ⟨σ3, ps⟩ := out
        simp only at h
        have hblkmem : blk ∈ body.blocks := List.getElem?_mem hblk
        have hin := @bounded_applyStmts body.numLocals
          ⟨es.entries.getD b ∅, es.points⟩ (taintBounded_getD hbe b) hbp
          blk.stmts (hwf blk hblkmem).1
        have hstep := bounded_stepTermO hin.1 hin.2 (hwf blk hblkmem).2
          (by simpa [blockExitO] using hexit)
        exact ih (entriesBounded_joinSuccs hbe hstep.1 _) hstep.2 h

/-! ### Termination: success of every layer given enough fuel -/

theorem stepTermO_success {prog : Program} {oracle : SummaryOracle}
    {c0 : Cache} (hOG : OracleGood prog c0 oracle) (σ : Interp) (ps : PState)
    {t : Terminator} (htOk : TermOk prog t) (hle : cacheLe c0 σ.cache) :
    ∃ out, stepTermO prog oracle σ ps t = some out ∧
      cacheLe σ.cache out.1.cache := by
  cases t with
  | goto tg => exact ⟨(σ, ps), rfl, cacheLe_refl _⟩
  | switchInt ts => exact ⟨(σ, ps), rfl, cacheLe_refl _⟩
  | ret => exact ⟨(σ, ps), rfl, cacheLe_refl _⟩
  | assertT tg => exact ⟨(σ, ps), rfl, cacheLe_refl _⟩
  | unmodeled ts => exact ⟨(σ, ps), rfl, cacheLe_refl _⟩
  | call callee name args dest span tgt =>
    simp only [stepTermO]
    cases hinfo : prog.info callee with
    | some kind =>
      cases kind with
      | source => simp only [hinfo]; exact ⟨_, rfl, cacheLe_refl _⟩
      | sanitizer => simp only [hinfo]; exact ⟨_, rfl, cacheLe_refl _⟩
      | sink => simp only [hinfo]; exact ⟨_, rfl, cacheLe_refl _⟩
    | none =>
      simp only [hinfo]
      obtain ⟨hmem, harity⟩ := htOk callee name args dest span tgt rfl hinfo
      have hlen : (initVector ps args).length ≤ maxCallArity prog := by
        rw [initVector, List.length_map]
        exact harity
      obtain ⟨out, hout, hgrow⟩ :=
        hOG σ callee (initVector ps args) hmem hlen hle
      simp only [t_fn_call_analysisO, hout]
      obtain ⟨σ2, summ⟩ := out
      cases summ with
      | none => exact ⟨(σ2, ps), rfl, hgrow⟩
      | some endState => exact ⟨_, rfl, hgrow⟩

theorem engineRoundO_success {prog : Program} {oracle : SummaryOracle}
    {c0 : Cache} {body : Body} (hOG : OracleGood prog c0 oracle)
    (hbodyOk : ∀ blk ∈ body.blocks, TermOk prog blk.term) :
    ∀ (order : List Nat) (σ : Interp) (es : EngineState),
      cacheLe c0 σ.cache →
      ∃ out, engineRoundO prog oracle body σ es order = some out ∧
        cacheLe σ.cache out.1.cache := by
  intro order
  induction order with
  | nil => intro σ es hle; exact ⟨(σ, es), rfl, cacheLe_refl _⟩
  | cons b rest ih =>
    intro σ es hle
    simp only [engineRoundO]
    cases hblk : body.blocks[b]? with
    | none =>
      simp only [hblk]
      exact ih σ es hle
    | some blk =>
      simp only [hblk]
      obtain ⟨⟨σ2, ps⟩, hbe, hgrow⟩ := stepTermO_success hOG σ
        (applyStmts ⟨es.entries.getD b ∅, es.points⟩ blk.stmts)
        (hbodyOk blk (List.getElem?_mem hblk)) hle
      simp only [blockExitO, hbe]
      obtain ⟨out2, hrest, hgrow2⟩ := ih σ2
        ⟨joinSuccs es.entries ps.taint blk.term.successors, ps.points⟩
        (cacheLe_trans hle hgrow)
      exact ⟨out2, hrest, cacheLe_trans hgrow hgrow2⟩

theorem engineIterO_success {prog : Program} {oracle : SummaryOracle}
    {c0 : Cache} {body : Body}
    (hOG : OracleGood prog c0 oracle)
    (hbodyOk : ∀ blk ∈ body.blocks, TermOk prog blk.term)
    (hwfb : ∀ blk ∈ body.blocks,
      (∀ st ∈ blk.stmts, stmtWF body.numLocals st = true) ∧
      termWF body.numLocals blk.term = true) :
    ∀ (order : List Nat) (r : Nat) (σ : Interp) (es : EngineState),
      cacheLe c0 σ.cache →
      entriesBounded body.numLocals es.entries →
      pointsBounded body.numLocals es.points →
      es.entries.length = body.blocks.length →
      body.blocks.length * body.numLocals + 1 ≤ r + sumCard es.entries →
      ∃ out, engineIterO prog oracle body order r σ es = some out ∧
        cacheLe σ.cache out.1.cache := by
  intro order r
  induction r with
  | zero =>
    intro σ es hle hbe hbp hlen hmeas
    exfalso
    have h2 := sumCard_le_bound hbe
    rw [hlen] at h2
    omega
  | succ r ih =>
    intro σ es hle hbe hbp hlen hmeas
    obtain ⟨⟨σ2, es2⟩, hround, hgrow⟩ :=
      engineRoundO_success hOG hbodyOk order σ es hle
    simp only [engineIterO, hround]
    by_cases hstable : es2.entries = es.entries
    · rw [if_pos hstable]
      exact ⟨(σ2, es2), rfl, hgrow⟩
    · rw [if_neg hstable]
      have hEle := engineRoundO_entriesLe hround
      have hb2 := engineRoundO_bounded hwfb hbe hbp hround
      have hlen2 : es2.entries.length = body.blocks.length := by
        rw [← hEle.1, hlen]
      have hsum : sumCard es.entries < sumCard es2.entries :=
        sumCard_lt_of_entriesLe_ne hEle
          (fun hcontra => hstable (by rw [hcontra]))
      obtain ⟨out, hrec, hgrow2⟩ := ih σ2 es2 (cacheLe_trans hle hgrow)
        hb2.1 hb2.2 hlen2 (by omega)
      exact ⟨out, hrec, cacheLe_trans hgrow hgrow2⟩

theorem mem_foldl_insert {l : List (Option Bool × Local)} {s : Finset Local}
    {x : Local} (hx : x ∈ l.foldl (fun acc p => insert p.2 acc) s) :
    x ∈ s ∨ ∃ p ∈ l, p.2 = x := by
  induction l generalizing s with
  | nil => exact Or.inl hx
  | cons p rest ih =>
    rcases ih hx with h | ⟨q, hq, rfl⟩
    · rcases Finset.mem_insert.1 h with rfl | h2
      · exact Or.inr ⟨p, List.mem_cons_self _ _, rfl⟩
      · exact Or.inl h2
    · exact Or.inr ⟨q, List.mem_cons_of_mem _ hq, rfl⟩

theorem initState_bounded {init : InitSet} {body : Body}
    (h : body.argCount < body.numLocals) :
    taintBounded body.numLocals (initState init body) := by
  intro x hx
  rw [initState] at hx
  rcases mem_foldl_insert hx with h2 | ⟨p, hp, hpx⟩
  · simp at h2
  · have hzip := List.of_mem_zip (List.mem_of_mem_filter hp)
    have hmem := hzip.2
    rw [argLocals] at hmem
    have h3 := List.mem_range'_1.1 hmem
    rw [← hpx]
    have h4 : p.2 < body.argCount + 1 := by
      have h5 := h3.2
      rwa [Nat.add_comm] at h5
    exact lt_of_le_of_lt (Nat.lt_succ_iff.mp h4) h

theorem initialEntries_bounded {init : InitSet} {body : Body}
    (h : body.argCount < body.numLocals) :
    entriesBounded body.numLocals (initialEntries init body) := by
  intro t ht
  rw [initialEntries] at ht
  rcases List.mem_map.1 ht with ⟨b, _, rfl⟩
  by_cases hb : b = 0
  · rw [if_pos hb]
    exact initState_bounded h
  · rw [if_neg hb]
    intro x hx
    simp at hx

theorem initialEntries_length (init : InitSet) (body : Body) :
    (initialEntries init body).length = body.blocks.length := by
  simp [initialEntries]

theorem bodyWF_spec {body : Body} (h : bodyWF body = true) :
    body.argCount < body.numLocals ∧ ∀ blk ∈ body.blocks,
      (∀ st ∈ blk.stmts, stmtWF body.numLocals st = true) ∧
      termWF body.numLocals blk.term = true := by
  rw [bodyWF, Bool.and_eq_true, decide_eq_true_eq, List.all_eq_true] at h
  refine ⟨h.1, fun blk hblk => ?_⟩
  have h2 := h.2 blk hblk
  rw [Bool.and_eq_true, List.all_eq_true] at h2
  exact ⟨fun st hst => h2.1 st hst, h2.2⟩

theorem analyzeNestedO_success {prog : Program} {oracle : SummaryOracle}
    {c0 : Cache} (hwf : ProgWF prog) (hOG : OracleGood prog c0 oracle)
    {fid : FnId} (hfid : fid ∈ prog.fns) (init : InitSet) (σ : Interp)
    (hle : cacheLe c0 σ.cache) :
    ∃ out, analyzeNestedO prog oracle σ fid init = some out ∧
      cacheLe σ.cache out.1.cache := by
  obtain ⟨hbwf, hcok⟩ := hwf fid hfid
  obtain ⟨hargc, hblks⟩ := bodyWF_spec hbwf
  have hbodyOk : ∀ blk ∈ (prog.bodies fid).blocks, TermOk prog blk.term :=
    fun blk hblk => termOk_of_wf prog hfid hcok hblk
  obtain ⟨⟨σ2, es⟩, hiter, hgrow⟩ := engineIterO_success hOG hbodyOk hblks
    (rpo (prog.bodies fid)) (roundBound (prog.bodies fid)) σ
    ⟨initialEntries init (prog.bodies fid), []⟩
    hle (initialEntries_bounded hargc) (by intro e he; simp at he)
    (initialEntries_length _ _) (by rw [roundBound]; omega)
  simp only [analyzeNestedO, hiter]
  cases hlast : (rpo (prog.bodies fid)).getLast? with
  | none =>
    simp only [hlast]
    exact ⟨(σ2, none), rfl, hgrow⟩
  | some last =>
    simp only [hlast]
    cases hblk2 : (prog.bodies fid).blocks[last]? with
    | none =>
      simp only [hblk2]
      exact ⟨(σ2, none), rfl, hgrow⟩
    | some blk =>
      simp only [hblk2]
      obtain ⟨⟨σ3, ps⟩, hbe, hgrow2⟩ := stepTermO_success hOG σ2
        (applyStmts ⟨es.entries.getD last ∅, es.points⟩ blk.stmts)
        (hbodyOk blk (List.getElem?_mem hblk2)) (cacheLe_trans hle hgrow)
      simp only [blockExitO, hbe]
      exact ⟨(σ3, some ps.taint), rfl, cacheLe_trans hgrow hgrow2⟩

theorem summaryAtFuel_success (prog : Program) (hwf : ProgWF prog) :
    ∀ fuel σ fid init, fid ∈ prog.fns →
      init.length ≤ maxCallArity prog →
      (missingKeys prog σ.cache).card < fuel →
      ∃ out, summaryAtFuel prog fuel σ fid init = some out ∧
        cacheLe σ.cache out.1.cache := by
  intro fuel
  induction fuel using Nat.strong_induction_on with
  | _ fuel ih =>
    intro σ fid init hfid hlen hcard
    cases fuel with
    | zero => exact absurd hcard (by omega)
    | succ f =>
      simp only [summaryAtFuel]
      cases hcl : cacheLookup σ.cache (fid, init) with
      | some s =>
        simp only [hcl]
        exact ⟨(σ, s), rfl, cacheLe_refl _⟩
      | none =>
        simp only [hcl]
        have hkeymem : (fid, init) ∈ missingKeys prog σ.cache :=
          Finset.mem_filter.2 ⟨key_mem_universe prog fid init hfid hlen,
            by simpa using hcl⟩
        have hins := missingKeys_insert prog σ.cache (fid, init) none hcl
        have hpos : 0 < (missingKeys prog σ.cache).card :=
          Finset.card_pos.2 ⟨_, hkeymem⟩
        have hcard1 : (missingKeys prog
            (cacheInsert σ.cache (fid, init) none)).card < f := by
          rw [hins, Finset.card_erase_of_mem hkeymem]
          omega
        have hOG : OracleGood prog (cacheInsert σ.cache (fid, init) none)
            (summaryAtFuel prog f) := by
          intro σ2 k i hk hi hle2
          have hsub := missingKeys_anti prog hle2
          have hlt : (missingKeys prog σ2.cache).card < f :=
            lt_of_le_of_lt (Finset.card_le_card hsub) hcard1
          exact ih f (Nat.lt_succ_self f) σ2 k i hk hi hlt
        obtain ⟨⟨σ2, state⟩, hnest, hgrow⟩ := analyzeNestedO_success hwf hOG
          hfid init ⟨cacheInsert σ.cache (fid, init) none, σ.diags⟩
          (cacheLe_refl _)
        simp only [hnest]
        refine ⟨_, rfl, ?_⟩
        exact cacheLe_trans (cacheLe_insert _ _ _)
          (cacheLe_trans hgrow (cacheLe_insert _ _ _))

/-- C4: for a well-formed program the analysis of any analyzed function
terminates: with fuel one larger than the finite key universe the summary
computation completes, and a summary key already `InProgress` is never
re-analyzed — its lookup returns "no summary" immediately with the state
untouched.  Convergence of each per-body fixpoint is what the proof of
`engineIterO_success` establishes from the lattice height
`blocks × numLocals`. -/
theorem analysis_terminates (prog : Program) (hwf : ProgWF prog) (fid : FnId)
    (hfid : fid ∈ prog.fns) (init : InitSet)
    (hlen : init.length ≤ maxCallArity prog) :
    (∃ out, t_function_summary prog ((keyUniverse prog).card + 1) ⟨[], []⟩
      fid init = some out) ∧
    (∀ fuel σ2, cacheLookup σ2.cache (fid, init) = some none →
      t_function_summary prog fuel σ2 fid init = some (σ2, none)) := by
  constructor
  · have hsub : missingKeys prog ([] : Cache) ⊆ keyUniverse prog :=
      Finset.filter_subset _ _
    have hcard : (missingKeys prog ([] : Cache)).card <
        (keyUniverse prog).card + 1 := by
      have := Finset.card_le_card hsub
      omega
    obtain ⟨out, hout, _⟩ := summaryAtFuel_success prog hwf
      ((keyUniverse prog).card + 1) ⟨[], []⟩ fid init hfid hlen hcard
    exact ⟨out, hout⟩
  · intro fuel σ2 h
    cases fuel <;> simp [t_function_summary, summaryAtFuel, h]

/-- C4 witness: a directly recursive function (its single block calls itself
with the same empty init vector) is analyzed to completion, and a lookup of
its in-progress key returns "no summary". -/
theorem analysis_terminates_witness :
    (∃ out, t_function_summary
      ⟨{0}, fun _ => ⟨2, 0, [⟨[], .call 0 "g" [] 1 0 (some 1)⟩, ⟨[], .ret⟩]⟩,
        fun _ => none⟩
      ((keyUniverse ⟨{0}, fun _ =>
        ⟨2, 0, [⟨[], .call 0 "g" [] 1 0 (some 1)⟩, ⟨[], .ret⟩]⟩,
        fun _ => none⟩).card + 1) ⟨[], []⟩ 0 [] = some out) ∧
    t_function_summary
      ⟨{0}, fun _ => ⟨2, 0, [⟨[], .call 0 "g" [] 1 0 (some 1)⟩, ⟨[], .ret⟩]⟩,
        fun _ => none⟩ 7 ⟨[((0, []), none)], []⟩ 0 [] =
      some (⟨[((0, []), none)], []⟩, none) := by
  constructor
  · exact (analysis_terminates
      ⟨{0}, fun _ => ⟨2, 0, [⟨[], .call 0 "g" [] 1 0 (some 1)⟩, ⟨[], .ret⟩]⟩,
        fun _ => none⟩
      (fun f hf =>
        ⟨(by decide : bodyWF
            ⟨2, 0, [⟨[], .call 0 "g" [] 1 0 (some 1)⟩, ⟨[], .ret⟩]⟩ = true),
         (by decide : calleesOk
            ⟨{0}, fun _ =>
              ⟨2, 0, [⟨[], .call 0 "g" [] 1 0 (some 1)⟩, ⟨[], .ret⟩]⟩,
              fun _ => none⟩
            ⟨2, 0, [⟨[], .call 0 "g" [] 1 0 (some 1)⟩, ⟨[], .ret⟩]⟩ =
            true)⟩) 0 (by decide) [] (by decide)).1
  · exact (analysis_terminates
      ⟨{0}, fun _ => ⟨2, 0, [⟨[], .call 0 "g" [] 1 0 (some 1)⟩, ⟨[], .ret⟩]⟩,
        fun _ => none⟩
      (fun f hf =>
        ⟨(by decide : bodyWF
            ⟨2, 0, [⟨[], .call 0 "g" [] 1 0 (some 1)⟩, ⟨[], .ret⟩]⟩ = true),
         (by decide : calleesOk
            ⟨{0}, fun _ =>
              ⟨2, 0, [⟨[], .call 0 "g" [] 1 0 (some 1)⟩, ⟨[], .ret⟩]⟩,
              fun _ => none⟩
            ⟨2, 0, [⟨[], .call 0 "g" [] 1 0 (some 1)⟩, ⟨[], .ret⟩]⟩ =
            true)⟩) 0 (by decide) [] (by decide)).2 7
      ⟨[((0, []), none)], []⟩ (by decide)

/-! ### Cache transparency for callees without unclassified calls -/

theorem callFreeBody_spec {prog : Program} {body : Body}
    (h : callFreeBody prog body = true) :
    ∀ blk ∈ body.blocks, ∀ callee name args dest span tgt,
      blk.term = .call callee name args dest span tgt →
        prog.info callee ≠ none := by
  intro blk hblk callee name args dest span tgt ht
  rw [callFreeBody, List.all_eq_true] at h
  have h2 := h blk hblk
  rw [ht] at h2
  simp only [Option.isSome] at h2
  intro hcontra
  rw [hcontra] at h2
  simp at h2

theorem stepTermO_classified {prog : Program} {t : Terminator}
    (hcl : ∀ callee name args dest span tgt,
      t = .call callee name args dest span tgt → prog.info callee ≠ none)
    (ps : PState) :
    ∃ ps2 d, ∀ (oracle : SummaryOracle) (σ : Interp),
      stepTermO prog oracle σ ps t = some (⟨σ.cache, σ.diags ++ d⟩, ps2) := by
  cases t with
  | goto tg =>
    exact ⟨ps, [], fun oracle σ => by cases σ; simp [stepTermO]⟩
  | switchInt ts =>
    exact ⟨ps, [], fun oracle σ => by cases σ; simp [stepTermO]⟩
  | ret => exact ⟨ps, [], fun oracle σ => by cases σ; simp [stepTermO]⟩
  | assertT tg =>
    exact ⟨ps, [], fun oracle σ => by cases σ; simp [stepTermO]⟩
  | unmodeled ts =>
    exact ⟨ps, [], fun oracle σ => by cases σ; simp [stepTermO]⟩
  | call callee name args dest span tgt =>
    cases hinfo : prog.info callee with
    | none => exact absurd hinfo (hcl callee name args dest span tgt rfl)
    | some kind =>
      cases kind with
      | source =>
        exact ⟨setTaint ps dest true, [],
          fun oracle σ => by cases σ; simp [stepTermO, hinfo]⟩
      | sanitizer =>
        exact ⟨setTaint ps dest false, [],
          fun oracle σ => by cases σ; simp [stepTermO, hinfo]⟩
      | sink =>
        exact ⟨ps, (t_visit_sink ps name args span).toList,
          fun oracle σ => by simp [stepTermO, hinfo]⟩

theorem engineRoundO_classified {prog : Program} {body : Body}
    (hcf : ∀ blk ∈ body.blocks, ∀ callee name args dest span tgt,
      blk.term = .call callee name args dest span tgt →
        prog.info callee ≠ none) :
    ∀ (order : List Nat) (es : EngineState), ∃ es2 d,
      ∀ (oracle : SummaryOracle) (σ : Interp),
        engineRoundO prog oracle body σ es order =
          some (⟨σ.cache, σ.diags ++ d⟩, es2) := by
  intro order
  induction order with
  | nil =>
    intro es
    exact ⟨es, [], fun oracle σ => by cases σ; simp [engineRoundO]⟩
  | cons b rest ih =>
    intro es
    cases hblk : body.blocks[b]? with
    | none =>
      obtain ⟨es2, d, hrun⟩ := ih es
      refine ⟨es2, d, fun oracle σ => ?_⟩
      simp only [engineRoundO, hblk]
      exact hrun oracle σ
    | some blk =>
      obtain ⟨ps2, d1, hblkrun⟩ := stepTermO_classified
        (hcf blk (List.getElem?_mem hblk))
        (applyStmts ⟨es.entries.getD b ∅, es.points⟩ blk.stmts)
      obtain ⟨es2, d2, hrest⟩ := ih
        ⟨joinSuccs es.entries ps2.taint blk.term.successors, ps2.points⟩
      refine ⟨es2, d1 ++ d2, fun oracle σ => ?_⟩
      simp only [engineRoundO, hblk, blockExitO, hblkrun oracle σ]
      have h2 := hrest oracle ⟨σ.cache, σ.diags ++ d1⟩
      simpa [List.append_assoc] using h2

theorem engineIterO_classified {prog : Program} {body : Body}
    (hcf : ∀ blk ∈ body.blocks, ∀ callee name args dest span tgt,
      blk.term = .call callee name args dest span tgt →
        prog.info callee ≠ none) (order : List Nat) :
    ∀ (r : Nat) (es : EngineState),
      (∀ (oracle : SummaryOracle) (σ : Interp),
        engineIterO prog oracle body order r σ es = none) ∨
      ∃ es2 d, ∀ (oracle : SummaryOracle) (σ : Interp),
        engineIterO prog oracle body order r σ es =
          some (⟨σ.cache, σ.diags ++ d⟩, es2) := by
  intro r
  induction r with
  | zero => intro es; exact Or.inl (fun oracle σ => rfl)
  | succ r ih =>
    intro es
    obtain ⟨es2, d1, hround⟩ := engineRoundO_classified hcf order es
    by_cases hst : es2.entries = es.entries
    · refine Or.inr ⟨es2, d1, fun oracle σ => ?_⟩
      simp [engineIterO, hround oracle σ, hst]
    · rcases ih es2 with hnone | ⟨es3, d2, hrec⟩
      · refine Or.inl (fun oracle σ => ?_)
        simp only [engineIterO, hround oracle σ]
        rw [if_neg hst]
        exact hnone oracle ⟨σ.cache, σ.diags ++ d1⟩
      · refine Or.inr ⟨es3, d1 ++ d2, fun oracle σ => ?_⟩
        simp only [engineIterO, hround oracle σ]
        rw [if_neg hst]
        have h2 := hrec oracle ⟨σ.cache, σ.diags ++ d1⟩
        simpa [List.append_assoc] using h2

theorem analyzeNestedO_classified {prog : Program} {fid : FnId}
    (hcf : callFreeBody prog (prog.bodies fid) = true) (init : InitSet) :
    (∀ (oracle : SummaryOracle) (σ : Interp),
      analyzeNestedO prog oracle σ fid init = none) ∨
    ∃ s d, ∀ (oracle : SummaryOracle) (σ : Interp),
      analyzeNestedO prog oracle σ fid init =
        some (⟨σ.cache, σ.diags ++ d⟩, s) := by
  have hcl := callFreeBody_spec hcf
  rcases engineIterO_classified hcl (rpo (prog.bodies fid))
      (roundBound (prog.bodies fid))
      ⟨initialEntries init (prog.bodies fid), []⟩ with hnone | ⟨es2, d1, hiter⟩
  · refine Or.inl (fun oracle σ => ?_)
    simp [analyzeNestedO, hnone oracle σ]
  · cases hlast : (rpo (prog.bodies fid)).getLast? with
    | none =>
      refine Or.inr ⟨none, d1, fun oracle σ => ?_⟩
      simp [analyzeNestedO, hiter oracle σ, hlast]
    | some last =>
      cases hblk : (prog.bodies fid).blocks[last]? with
      | none =>
        refine Or.inr ⟨none, d1, fun oracle σ => ?_⟩
        simp [analyzeNestedO, hiter oracle σ, hlast, hblk]
      | some blk =>
        obtain ⟨ps2, d2, hband⟩ := stepTermO_classified
          (hcl blk (List.getElem?_mem hblk))
          (applyStmts ⟨es2.entries.getD last ∅, es2.points⟩ blk.stmts)
        refine Or.inr ⟨some ps2.taint, d1 ++ d2, fun oracle σ => ?_⟩
        simp only [analyzeNestedO, hiter oracle σ, hlast, hblk, blockExitO]
        have h2 := hband oracle ⟨σ.cache, σ.diags ++ d1⟩
        simp only [h2]
        simp [List.append_assoc]

/-- C8: cache transparency for a callee whose calls are all classified (in
particular, a non-recursive callee): at a call site the caller-side state is
the same whether the summary for the observed argument pattern is returned
from the cache (having been computed at an earlier call site with the same
key, hence equal to the fresh value `sVal`) or recomputed fresh at this call
site; the cache can only change performance, never the resulting state. -/
theorem cache_transparency (prog : Program) (fid : FnId)
    (hcf : callFreeBody prog (prog.bodies fid) = true) (ps : PState)
    (args : List Operand) (dest : Local) (σa σb : Interp) (fa fb : Nat)
    (sVal : Option TaintState)
    (hfresh : ∃ σf, analyzeNested prog 0 ⟨[], []⟩ fid (initVector ps args) =
      some (σf, sVal))
    (ha : cacheLookup σa.cache (fid, initVector ps args) = none ∧ 1 ≤ fa ∨
      cacheLookup σa.cache (fid, initVector ps args) = some sVal)
    (hb : cacheLookup σb.cache (fid, initVector ps args) = none ∧ 1 ≤ fb ∨
      cacheLookup σb.cache (fid, initVector ps args) = some sVal) :
    ∃ psOut σa2 σb2,
      t_fn_call_analysis prog fa σa ps args fid dest = some (σa2, psOut) ∧
      t_fn_call_analysis prog fb σb ps args fid dest = some (σb2, psOut) := by
  obtain ⟨σf, hfr⟩ := hfresh
  have hsum : ∀ (σ : Interp) (f : Nat),
      (cacheLookup σ.cache (fid, initVector ps args) = none ∧ 1 ≤ f ∨
        cacheLookup σ.cache (fid, initVector ps args) = some sVal) →
      ∃ σ2, summaryAtFuel prog f σ fid (initVector ps args) =
        some (σ2, sVal) := by
    intro σ f hco
    rcases hco with ⟨hmiss, hf⟩ | hhit
    · rcases analyzeNestedO_classified hcf (initVector ps args) with
        hnone | ⟨s, d, hall⟩
      · exact absurd hfr (by rw [analyzeNested, hnone]; simp)
      · have hs : s = sVal := by
          have h2 := hall (summaryAtFuel prog 0) ⟨[], []⟩
          rw [analyzeNested] at hfr
          rw [h2] at hfr
          exact (Prod.mk.injEq .. ▸ Option.some_injective _ hfr).2
        subst hs
        cases f with
        | zero => omega
        | succ f2 =>
          refine ⟨⟨cacheInsert (cacheInsert σ.cache (fid, initVector ps args)
            none) (fid, initVector ps args) s, σ.diags ++ d⟩, ?_⟩
          simp only [summaryAtFuel, hmiss]
          rw [hall (summaryAtFuel prog f2)
            ⟨cacheInsert σ.cache (fid, initVector ps args) none, σ.diags⟩]
    · exact ⟨σ, by cases f <;> simp [summaryAtFuel, hhit]⟩
  obtain ⟨σa2, hsa⟩ := hsum σa fa ha
  obtain ⟨σb2, hsb⟩ := hsum σb fb hb
  cases sVal with
  | none =>
    refine ⟨ps, σa2, σb2, ?_, ?_⟩ <;>
      simp [t_fn_call_analysis, t_fn_call_analysisO, hsa, hsb]
  | some endState =>
    refine ⟨writeBackArgs endState
      ((args.map Operand.place).zip (argLocals (prog.bodies fid)))
      (if 0 ∈ endState then setTaint ps dest true else ps), σa2, σb2, ?_, ?_⟩
      <;> simp [t_fn_call_analysis, t_fn_call_analysisO, hsa, hsb]

/-- C8 witness: the same caller state results from a cache hit and from a
fresh recomputation for a one-parameter callee with a tainted actual. -/
theorem cache_transparency_witness :
    ∃ psOut σa2 σb2,
      t_fn_call_analysis ⟨{0}, fun _ => ⟨2, 1, [⟨[], .ret⟩]⟩, fun _ => none⟩
        3 ⟨[((0, [some true]), some {1})], []⟩ ⟨{4}, []⟩ [.copy 4] 0 9 =
        some (σa2, psOut) ∧
      t_fn_call_analysis ⟨{0}, fun _ => ⟨2, 1, [⟨[], .ret⟩]⟩, fun _ => none⟩
        1 ⟨[], []⟩ ⟨{4}, []⟩ [.copy 4] 0 9 = some (σb2, psOut) :=
  cache_transparency ⟨{0}, fun _ => ⟨2, 1, [⟨[], .ret⟩]⟩, fun _ => none⟩ 0
    (by decide) ⟨{4}, []⟩ [.copy 4] 9 ⟨[((0, [some true]), some {1})], []⟩
    ⟨[], []⟩ 3 1 (some {1}) ⟨⟨[], []⟩, by decide⟩ (Or.inr (by decide))
    (Or.inl ⟨by decide, by omega⟩)

/-! ### Binding stability of the interpreter -/

theorem cachePres_refl (c : Cache) : cachePres c c := fun _ _ h => h

theorem cachePres_trans {a b c : Cache} (h1 : cachePres a b)
    (h2 : cachePres b c) : cachePres a c := fun k v hk => h2 k v (h1 k v hk)

theorem cachePres_insert_absent {c : Cache} {k : CacheKey}
    (hk : cacheLookup c k = none) (v : Option TaintState) :
    cachePres c (cacheInsert c k v) := by
  intro k2 v2 hk2
  have hne : k ≠ k2 := by
    intro h
    subst h
    rw [hk] at hk2
    exact absurd hk2 (by simp)
  rw [cacheLookup_insert_ne _ _ _ _ hne]
  exact hk2

theorem cachePres_le {c c2 : Cache} (h : cachePres c c2) : cacheLe c c2 := by
  intro k hk
  cases hc : cacheLookup c k with
  | none => rw [hc] at hk; simp at hk
  | some v => rw [h k v hc]; rfl

theorem stepTermO_pres {prog : Program} {oracle : SummaryOracle}
    (hO : OraclePres oracle) {σ σ2 : Interp} {ps ps2 : PState}
    {t : Terminator} (h : stepTermO prog oracle σ ps t = some (σ2, ps2)) :
    cachePres σ.cache σ2.cache := by
  cases t with
  | goto tg => cases h; exact cachePres_refl _
  | switchInt ts => cases h; exact cachePres_refl _
  | ret => cases h; exact cachePres_refl _
  | assertT tg => cases h; exact cachePres_refl _
  | unmodeled ts => cases h; exact cachePres_refl _
  | call callee name args dest span tgt =>
    simp only [stepTermO] at h
    cases hinfo : prog.info callee with
    | some kind =>
      rw [hinfo] at h
      cases kind <;> simp only at h <;> cases h <;> exact cachePres_refl _
    | none =>
      rw [hinfo] at h
      simp only [t_fn_call_analysisO] at h
      cases horacle : oracle σ callee (initVector ps args) with
      | none => rw [horacle] at h; exact absurd h (by simp)
      | some out =>
        rw [horacle] at h
        obtain ⟨σ3, summ⟩ := out
        have hpres := hO σ callee (initVector ps args) (σ3, summ) horacle
        cases summ with
        | none => simp only at h; cases h; exact hpres
        | some endState => simp only at h; cases h; exact hpres

theorem engineRoundO_pres {prog : Program} {oracle : SummaryOracle}
    (hO : OraclePres oracle) {body : Body} :
    ∀ {order : List Nat} {σ σ2 : Interp} {es es2 : EngineState},
      engineRoundO prog oracle body σ es order = some (σ2, es2) →
      cachePres σ.cache σ2.cache := by
  intro order
  induction order with
  | nil =>
    intro σ σ2 es es2 h
    simp only [engineRoundO] at h
    cases h
    exact cachePres_refl _
  | cons b rest ih =>
    intro σ σ2 es es2 h
    simp only [engineRoundO] at h
    cases hblk : body.blocks[b]? with
    | none =>
      simp only [hblk] at h
      exact ih h
    | some blk =>
      simp only [hblk] at h
      cases hbe : blockExitO prog oracle σ (es.entries.getD b ∅) es.points
          blk with
      | none => simp only [hbe] at h; exact absurd h (by simp)
      | some out =>
        simp only [hbe] at h
        obtain ⟨σ3, ps⟩ := out
        simp only at h
        exact cachePres_trans (stepTermO_pres hO hbe) (ih h)

theorem engineIterO_pres {prog : Program} {oracle : SummaryOracle}
    (hO : OraclePres oracle) {body : Body} {order : List Nat} :
    ∀ {r : Nat} {σ σ2 : Interp} {es es2 : EngineState},
      engineIterO prog oracle body order r σ es = some (σ2, es2) →
      cachePres σ.cache σ2.cache := by
  intro r
  induction r with
  | zero => intro σ σ2 es es2 h; exact absurd h (by simp [engineIterO])
  | succ r ih =>
    intro σ σ2 es es2 h
    simp only [engineIterO] at h
    cases hround : engineRoundO prog oracle body σ es order with
    | none => simp only [hround] at h; exact absurd h (by simp)
    | some out =>
      simp only [hround] at h
      obtain ⟨σ3, es3⟩ := out
      simp only at h
      by_cases hst : es3.entries = es.entries
      · rw [if_pos hst] at h
        cases h
        exact engineRoundO_pres hO hround
      · rw [if_neg hst] at h
        exact cachePres_trans (engineRoundO_pres hO hround) (ih h)

theorem analyzeNestedO_pres {prog : Program} {oracle : SummaryOracle}
    (hO : OraclePres oracle) {σ σ2 : Interp} {fid : FnId} {init : InitSet}
    {res : Option TaintState}
    (h : analyzeNestedO prog oracle σ fid init = some (σ2, res)) :
    cachePres σ.cache σ2.cache := by
  simp only [analyzeNestedO] at h
  cases hiter : engineIterO prog oracle (prog.bodies fid)
      (rpo (prog.bodies fid)) (roundBound (prog.bodies fid)) σ
      ⟨initialEntries init (prog.bodies fid), []⟩ with
  | none => simp only [hiter] at h; exact absurd h (by simp)
  | some out =>
    simp only [hiter] at h
    obtain ⟨σ3, es⟩ := out
    have h1 := engineIterO_pres hO hiter
    cases hlast : (rpo (prog.bodies fid)).getLast? with
    | none =>
      simp only [hlast] at h
      cases h
      exact h1
    | some last =>
      simp only [hlast] at h
      cases hblk : (prog.bodies fid).blocks[last]? with
      | none =>
        simp only [hblk] at h
        cases h
        exact h1
      | some blk =>
        simp only [hblk, blockExitO] at h
        cases hbe : stepTermO prog oracle σ3
            (applyStmts ⟨es.entries.getD last ∅, es.points⟩ blk.stmts)
            blk.term with
        | none =>
          simp only [hbe] at h
          exact absurd h (by simp)
        | some out2 =>
          simp only [hbe] at h
          obtain ⟨σ4, ps⟩ := out2
          simp only at h
          cases h
          exact cachePres_trans h1 (stepTermO_pres hO hbe)

theorem summaryAtFuel_pres (prog : Program) :
    ∀ fuel, OraclePres (summaryAtFuel prog fuel) := by
  intro fuel
  induction fuel with
  | zero =>
    intro σ k i out h
    simp only [summaryAtFuel] at h
    cases hcl : cacheLookup σ.cache (k, i) with
    | none => rw [hcl] at h; exact absurd h (by simp)
    | some v =>
      rw [hcl] at h
      cases h
      exact cachePres_refl _
  | succ f ih =>
    intro σ k i out h
    simp only [summaryAtFuel] at h
    cases hcl : cacheLookup σ.cache (k, i) with
    | some v =>
      rw [hcl] at h
      cases h
      exact cachePres_refl _
    | none =>
      rw [hcl] at h
      cases hn : analyzeNestedO prog (summaryAtFuel prog f)
          ⟨cacheInsert σ.cache (k, i) none, σ.diags⟩ k i with
      | none => rw [hn] at h; exact absurd h (by simp)
      | some out2 =>
        rw [hn] at h
        obtain ⟨σ2, state⟩ := out2
        simp only at h
        cases h
        intro k2 v2 hk2
        have hne : (k, i) ≠ k2 := by
          intro hcon
          subst hcon
          rw [hcl] at hk2
          exact absurd hk2 (by simp)
        rw [cacheLookup_insert_ne _ _ _ _ hne]
        exact analyzeNestedO_pres ih hn k2 v2
          (cachePres_insert_absent hcl none k2 v2 hk2)

theorem summaryAtFuel_records (prog : Program) :
    ∀ fuel, OracleRecords (summaryAtFuel prog fuel) := by
  intro fuel σ k i out h
  cases fuel with
  | zero =>
    simp only [summaryAtFuel] at h
    cases hcl : cacheLookup σ.cache (k, i) with
    | none => rw [hcl] at h; exact absurd h (by simp)
    | some v =>
      rw [hcl] at h
      cases h
      exact hcl
  | succ f =>
    simp only [summaryAtFuel] at h
    cases hcl : cacheLookup σ.cache (k, i) with
    | some v =>
      rw [hcl] at h
      cases h
      exact hcl
    | none =>
      rw [hcl] at h
      cases hn : analyzeNestedO prog (summaryAtFuel prog f)
          ⟨cacheInsert σ.cache (k, i) none, σ.diags⟩ k i with
      | none => rw [hn] at h; exact absurd h (by simp)
      | some out2 =>
        rw [hn] at h
        obtain ⟨σ2, state⟩ := out2
        simp only at h
        cases h
        exact cacheLookup_insert_self _ _ _

theorem summaryAtFuel_hits (prog : Program) (fuel : Nat) :
    OracleHits (summaryAtFuel prog fuel) := by
  intro σ k i v h
  cases fuel <;> simp [summaryAtFuel, h]

/-! ### Replay: a later recomputation reproduces an earlier fresh run,
because every answer the earlier run read or computed is still bound
unchanged in the later cache -/

theorem stepTermO_replay {prog : Program} {O1 O2 : SummaryOracle} {cE : Cache}
    (hrec : OracleRecords O1) (hhit : OracleHits O2) {σ1 σ1b : Interp}
    {ps psb : PState} {t : Terminator}
    (hrun1 : stepTermO prog O1 σ1 ps t = some (σ1b, psb))
    (hpresE : cachePres σ1b.cache cE) (σ2 : Interp)
    (hH : cachePres cE σ2.cache) :
    ∃ d2, stepTermO prog O2 σ2 ps t =
      some (⟨σ2.cache, σ2.diags ++ d2⟩, psb) := by
  cases t with
  | goto tg => cases hrun1; exact ⟨[], by cases σ2; simp [stepTermO]⟩
  | switchInt ts => cases hrun1; exact ⟨[], by cases σ2; simp [stepTermO]⟩
  | ret => cases hrun1; exact ⟨[], by cases σ2; simp [stepTermO]⟩
  | assertT tg => cases hrun1; exact ⟨[], by cases σ2; simp [stepTermO]⟩
  | unmodeled ts => cases hrun1; exact ⟨[], by cases σ2; simp [stepTermO]⟩
  | call callee name args dest span tgt =>
    simp only [stepTermO] at hrun1
    cases hinfo : prog.info callee with
    | some kind =>
      rw [hinfo] at hrun1
      cases kind with
      | source =>
        simp only at hrun1
        cases hrun1
        exact ⟨[], by cases σ2; simp [stepTermO, hinfo]⟩
      | sanitizer =>
        simp only at hrun1
        cases hrun1
        exact ⟨[], by cases σ2; simp [stepTermO, hinfo]⟩
      | sink =>
        simp only at hrun1
        cases hrun1
        exact ⟨(t_visit_sink ps name args span).toList,
          by simp [stepTermO, hinfo]⟩
    | none =>
      rw [hinfo] at hrun1
      simp only [t_fn_call_analysisO] at hrun1
      cases ho1 : O1 σ1 callee (initVector ps args) with
      | none => rw [ho1] at hrun1; exact absurd hrun1 (by simp)
      | some out =>
        rw [ho1] at hrun1
        obtain ⟨σm, v⟩ := out
        have hrecv := hrec σ1 callee (initVector ps args) (σm, v) ho1
        cases v with
        | none =>
          simp only at hrun1
          cases hrun1
          have hv2 : cacheLookup σ2.cache (callee, initVector ps args) =
              some none := hH _ _ (hpresE _ _ hrecv)
          refine ⟨[], ?_⟩
          simp only [stepTermO, hinfo, t_fn_call_analysisO,
            hhit σ2 callee (initVector ps args) none hv2]
          cases σ2
          simp
        | some endState =>
          simp only at hrun1
          cases hrun1
          have hv2 : cacheLookup σ2.cache (callee, initVector ps args) =
              some (some endState) := hH _ _ (hpresE _ _ hrecv)
          refine ⟨[], ?_⟩
          simp only [stepTermO, hinfo, t_fn_call_analysisO,
            hhit σ2 callee (initVector ps args) (some endState) hv2]
          cases σ2
          simp

theorem engineRoundO_replay {prog : Program} {O1 O2 : SummaryOracle}
    {cE : Cache} {body : Body} (hpres1 : OraclePres O1)
    (hrec : OracleRecords O1) (hhit : OracleHits O2) :
    ∀ {order : List Nat} {σ1 σ1b : Interp} {es esb : EngineState},
      engineRoundO prog O1 body σ1 es order = some (σ1b, esb) →
      cachePres σ1b.cache cE → ∀ (σ2 : Interp), cachePres cE σ2.cache →
      ∃ d2, engineRoundO prog O2 body σ2 es order =
        some (⟨σ2.cache, σ2.diags ++ d2⟩, esb) := by
  intro order
  induction order with
  | nil =>
    intro σ1 σ1b es esb h hp σ2 hH
    simp only [engineRoundO] at h
    cases h
    exact ⟨[], by cases σ2; simp [engineRoundO]⟩
  | cons b rest ih =>
    intro σ1 σ1b es esb h hp σ2 hH
    simp only [engineRoundO] at h
    cases hblk : body.blocks[b]? with
    | none =>
      simp only [hblk] at h
      obtain ⟨d2, hrest⟩ := ih h hp σ2 hH
      exact ⟨d2, by simp only [engineRoundO, hblk]; exact hrest⟩
    | some blk =>
      simp only [hblk] at h
      cases hbe : blockExitO prog O1 σ1 (es.entries.getD b ∅) es.points
          blk with
      | none => simp only [hbe] at h; exact absurd h (by simp)
      | some out =>
        simp only [hbe] at h
        obtain ⟨σm, psm⟩ := out
        simp only at h
        have hmid : cachePres σm.cache cE :=
          cachePres_trans (engineRoundO_pres hpres1 h) hp
        obtain ⟨d1, hbe2⟩ := stepTermO_replay hrec hhit hbe hmid σ2 hH
        obtain ⟨d2, hrest⟩ := ih h hp ⟨σ2.cache, σ2.diags ++ d1⟩ hH
        refine ⟨d1 ++ d2, ?_⟩
        simp only [engineRoundO, hblk, blockExitO] at hrest ⊢
        simp only [hbe2]
        simpa [List.append_assoc] using hrest

theorem engineIterO_replay {prog : Program} {O1 O2 : SummaryOracle}
    {cE : Cache} {body : Body} {order : List Nat} (hpres1 : OraclePres O1)
    (hrec : OracleRecords O1) (hhit : OracleHits O2) :
    ∀ {r : Nat} {σ1 σ1b : Interp} {es esb : EngineState},
      engineIterO prog O1 body order r σ1 es = some (σ1b, esb) →
      cachePres σ1b.cache cE → ∀ (σ2 : Interp), cachePres cE σ2.cache →
      ∃ d2, engineIterO prog O2 body order r σ2 es =
        some (⟨σ2.cache, σ2.diags ++ d2⟩, esb) := by
  intro r
  induction r with
  | zero =>
    intro σ1 σ1b es esb h
    exact absurd h (by simp [engineIterO])
  | succ r ih =>
    intro σ1 σ1b es esb h hp σ2 hH
    simp only [engineIterO] at h
    cases hround : engineRoundO prog O1 body σ1 es order with
    | none => simp only [hround] at h; exact absurd h (by simp)
    | some out =>
      simp only [hround] at h
      obtain ⟨σm, es2⟩ := out
      simp only at h
      by_cases hst : es2.entries = es.entries
      · rw [if_pos hst] at h
        cases h
        obtain ⟨d1, hround2⟩ := engineRoundO_replay hpres1 hrec hhit hround
          hp σ2 hH
        refine ⟨d1, ?_⟩
        simp only [engineIterO, hround2]
        rw [if_pos hst]
      · rw [if_neg hst] at h
        have hmid : cachePres σm.cache cE :=
          cachePres_trans (engineIterO_pres hpres1 h) hp
        obtain ⟨d1, hround2⟩ := engineRoundO_replay hpres1 hrec hhit hround
          hmid σ2 hH
        obtain ⟨d2, hrec2⟩ := ih h hp ⟨σ2.cache, σ2.diags ++ d1⟩ hH
        refine ⟨d1 ++ d2, ?_⟩
        simp only [engineIterO, hround2]
        rw [if_neg hst]
        simpa [List.append_assoc] using hrec2

theorem analyzeNestedO_replay {prog : Program} {O1 O2 : SummaryOracle}
    {cE : Cache} (hpres1 : OraclePres O1) (hrec : OracleRecords O1)
    (hhit : OracleHits O2) {σ1 σ1b : Interp} {fid : FnId} {init : InitSet}
    {res : Option TaintState}
    (h : analyzeNestedO prog O1 σ1 fid init = some (σ1b, res))
    (hp : cachePres σ1b.cache cE) (σ2 : Interp)
    (hH : cachePres cE σ2.cache) :
    ∃ d2, analyzeNestedO prog O2 σ2 fid init =
      some (⟨σ2.cache, σ2.diags ++ d2⟩, res) := by
  simp only [analyzeNestedO] at h
  cases hiter : engineIterO prog O1 (prog.bodies fid) (rpo (prog.bodies fid))
      (roundBound (prog.bodies fid)) σ1
      ⟨initialEntries init (prog.bodies fid), []⟩ with
  | none => simp only [hiter] at h; exact absurd h (by simp)
  | some out =>
    simp only [hiter] at h
    obtain ⟨σm, es⟩ := out
    cases hlast : (rpo (prog.bodies fid)).getLast? with
    | none =>
      simp only [hlast] at h
      cases h
      obtain ⟨d2, hiter2⟩ := engineIterO_replay hpres1 hrec hhit hiter hp
        σ2 hH
      exact ⟨d2, by simp [analyzeNestedO, hiter2, hlast]⟩
    | some last =>
      simp only [hlast] at h
      cases hblk : (prog.bodies fid).blocks[last]? with
      | none =>
        simp only [hblk] at h
        cases h
        obtain ⟨d2, hiter2⟩ := engineIterO_replay hpres1 hrec hhit hiter hp
          σ2 hH
        exact ⟨d2, by simp [analyzeNestedO, hiter2, hlast, hblk]⟩
      | some blk =>
        simp only [hblk, blockExitO] at h
        cases hbe : stepTermO prog O1 σm
            (applyStmts ⟨es.entries.getD last ∅, es.points⟩ blk.stmts)
            blk.term with
        | none => simp only [hbe] at h; exact absurd h (by simp)
        | some out2 =>
          simp only [hbe] at h
          obtain ⟨σ4, ps⟩ := out2
          simp only at h
          cases h
          have hmid : cachePres σm.cache cE :=
            cachePres_trans (stepTermO_pres hpres1 hbe) hp
          obtain ⟨d1, hiter2⟩ := engineIterO_replay hpres1 hrec hhit hiter
            hmid σ2 hH
          obtain ⟨d2, hbe2⟩ := stepTermO_replay hrec hhit hbe hp
            ⟨σ2.cache, σ2.diags ++ d1⟩ hH
          refine ⟨d1 ++ d2, ?_⟩
          simp only [analyzeNestedO, hiter2, hlast, hblk, blockExitO]
          simp only [hbe2]
          simp [List.append_assoc]

/-- C8: cache transparency.  Suppose the summary for the key
`(fid, InitVector of this argument pattern)` was computed fresh earlier in
the run (the key was absent, and the computation returned `sVal`), and the
cache has since then only gained bindings (`cachePres`, which every
successful interpreter step preserves).  Then at the present call site:
(a) the lookup hits and returns exactly `sVal`, with cache and state
untouched at any fuel; (b) re-analyzing the callee here instead — from the
cache with this key treated as in-progress — replays the earlier run and
returns the same `sVal` without touching the cache; and (c) the caller-side
state of the call is one fixed `psOut`, the same whether the summary is the
cached one or the recomputed one: the cache changes performance only, never
the analysis result. -/
theorem summary_cache_transparency (prog : Program) (fid : FnId) (f1 : Nat)
    (σA σA2 σB : Interp) (sVal : Option TaintState) (ps : PState)
    (args : List Operand) (dest : Local)
    (hmiss : cacheLookup σA.cache (fid, initVector ps args) = none)
    (h1 : t_function_summary prog f1 σA fid (initVector ps args) =
      some (σA2, sVal))
    (hAB : cachePres σA2.cache σB.cache) :
    (∀ fB, t_function_summary prog fB σB fid (initVector ps args) =
      some (σB, sVal)) ∧
    (∀ f2, ∃ d2, analyzeNested prog f2
      ⟨cacheInsert σB.cache (fid, initVector ps args) none, σB.diags⟩ fid
      (initVector ps args) =
      some (⟨cacheInsert σB.cache (fid, initVector ps args) none,
        σB.diags ++ d2⟩, sVal)) ∧
    (∃ psOut,
      (∀ fB, t_fn_call_analysis prog fB σB ps args fid dest =
        some (σB, psOut)) ∧
      ∀ σD fD, cacheLookup σD.cache (fid, initVector ps args) = some sVal →
        t_fn_call_analysis prog fD σD ps args fid dest =
          some (σD, psOut)) := by
  cases f1 with
  | zero =>
    rw [t_function_summary] at h1
    simp only [summaryAtFuel, hmiss] at h1
    exact absurd h1 (by simp)
  | succ f =>
    rw [t_function_summary] at h1
    simp only [summaryAtFuel, hmiss] at h1
    cases hn : analyzeNestedO prog (summaryAtFuel prog f)
        ⟨cacheInsert σA.cache (fid, initVector ps args) none, σA.diags⟩ fid
        (initVector ps args) with
    | none => rw [hn] at h1; exact absurd h1 (by simp)
    | some out =>
      rw [hn] at h1
      obtain ⟨σn, res⟩ := out
      simp only at h1
      obtain ⟨hσA2, hres⟩ := Prod.mk.injEq .. ▸ Option.some_injective _ h1
      subst hres
      have hA2key : cacheLookup σA2.cache (fid, initVector ps args) =
          some res := by
        rw [← hσA2]
        exact cacheLookup_insert_self _ _ _
      have hBkey : cacheLookup σB.cache (fid, initVector ps args) =
          some res := hAB _ _ hA2key
      have hnkey : cacheLookup σn.cache (fid, initVector ps args) =
          some none :=
        analyzeNestedO_pres (summaryAtFuel_pres prog f) hn
          (fid, initVector ps args) none (cacheLookup_insert_self _ _ _)
      have hH : cachePres σn.cache
          (cacheInsert σB.cache (fid, initVector ps args) none) := by
        intro k v hk
        by_cases hkey : (fid, initVector ps args) = k
        · subst hkey
          rw [hnkey] at hk
          cases hk
          exact cacheLookup_insert_self _ _ _
        · rw [cacheLookup_insert_ne _ _ _ _ hkey]
          have hA2k : cacheLookup σA2.cache k = some v := by
            rw [← hσA2, cacheLookup_insert_ne _ _ _ _ hkey]
            exact hk
          exact hAB _ _ hA2k
      have hhit : ∀ fB, t_function_summary prog fB σB fid
          (initVector ps args) = some (σB, res) := by
        intro fB
        cases fB <;> simp [t_function_summary, summaryAtFuel, hBkey]
      refine ⟨hhit, ?_, ?_⟩
      · intro f2
        obtain ⟨d2, hrep⟩ := analyzeNestedO_replay
          (summaryAtFuel_pres prog f) (summaryAtFuel_records prog f)
          (summaryAtFuel_hits prog f2) hn (cachePres_refl _)
          ⟨cacheInsert σB.cache (fid, initVector ps args) none, σB.diags⟩ hH
        exact ⟨d2, by rw [analyzeNested]; exact hrep⟩
      · refine ⟨match res with
          | none => ps
          | some endState => writeBackArgs endState
              ((args.map Operand.place).zip (argLocals (prog.bodies fid)))
              (if 0 ∈ endState then setTaint ps dest true else ps), ?_, ?_⟩
        · intro fB
          rw [t_fn_call_analysis, t_fn_call_analysisO]
          rw [show (summaryAtFuel prog fB σB fid (initVector ps args)) =
            some (σB, res) from hhit fB]
          cases res <;> rfl
        · intro σD fD hD
          rw [t_fn_call_analysis, t_fn_call_analysisO]
          rw [show (summaryAtFuel prog fD σD fid (initVector ps args)) =
            some (σD, res) from by
              cases fD <;> simp [summaryAtFuel, hD]]
          cases res <;> rfl

/-- C8 witness: the summary of a one-parameter callee computed fresh for a
tainted actual; a later lookup hits the same value and the on-site
recomputation replays to the same value. -/
theorem summary_cache_transparency_witness :
    (t_function_summary ⟨{0}, fun _ => ⟨2, 1, [⟨[], .ret⟩]⟩, fun _ => none⟩
      5 ⟨[((0, [some true]), some {1}), ((0, [some true]), none)], []⟩ 0
      [some true] =
      some (⟨[((0, [some true]), some {1}), ((0, [some true]), none)], []⟩,
        some {1})) ∧
    ∃ d2, analyzeNested ⟨{0}, fun _ => ⟨2, 1, [⟨[], .ret⟩]⟩, fun _ => none⟩
      0 ⟨cacheInsert [((0, [some true]), some {1}), ((0, [some true]), none)]
        (0, [some true]) none, []⟩ 0 [some true] =
      some (⟨cacheInsert [((0, [some true]), some {1}),
        ((0, [some true]), none)] (0, [some true]) none, [] ++ d2⟩,
        some {1}) := by
  have hiv : initVector (⟨{4}, []⟩ : PState) [Operand.copy 4] =
      [some true] := by decide
  have h := summary_cache_transparency
      ⟨{0}, fun _ => ⟨2, 1, [⟨[], .ret⟩]⟩, fun _ => none⟩ 0 1 ⟨[], []⟩
      ⟨[((0, [some true]), some {1}), ((0, [some true]), none)], []⟩
      ⟨[((0, [some true]), some {1}), ((0, [some true]), none)], []⟩
      (some {1}) ⟨{4}, []⟩ [.copy 4] 9 (by decide) (by decide)
      (cachePres_refl _)
  rw [hiv] at h
  exact ⟨h.1 5, h.2.1 0⟩

end TaintRs
